import Mathlib

/-!
Verification of the DMIS batch web-crawling and structured-extraction pipeline.

The JavaScript sources are shallowly embedded: JS strings become `List Char`,
DOM fragments become explicit projections carrying exactly the data the
extractors read (node kinds, texts, attributes), the network becomes an
explicit oracle function, and the persistence store becomes a list of records
threaded through the fold that mirrors each script's main loop.  JS truthiness
on strings (`""` and `null`/`undefined` are falsy) is modelled explicitly.
-/

set_option maxRecDepth 10000

/-- JS strings are modelled as lists of characters. -/
abbrev Str := List Char

/-- The non-breaking space character, rewritten to a plain space by the
    sources before whitespace collapsing. -/
def nbsp : Char := Char.ofNat 160

/-- Whitespace as matched by the sources' regexes (JS `\s` includes NBSP). -/
def isWS (c : Char) : Bool := c.isWhitespace || c = nbsp

/-- One pass of `replace(/\s+/g, " ")`: every maximal whitespace run becomes
    a single space.  The boolean records whether the previous kept character
    closed a whitespace run. -/
def collapseGo : Bool → Str → Str
  | _, [] => []
  | prevWS, c :: rest =>
    if isWS c then
      (if prevWS then collapseGo true rest else ' ' :: collapseGo true rest)
    else c :: collapseGo false rest

/-- JS `String.prototype.trim`: strip whitespace from both ends. -/
def trimS (s : Str) : Str := ((s.dropWhile isWS).reverse.dropWhile isWS).reverse

/-- The cleaning pipeline `replace(/\u00A0/g," ").replace(/\s+/g," ").trim()`
    used throughout the extractors. -/
def normWS (s : Str) : Str := trimS (collapseGo false s)

/-- `normText` / `textOrNull` from the detail fetchers: cleaned text, or
    `null` when the cleaned text is empty. -/
def normTextS (t : Str) : Option Str :=
  let n := normWS t
  if n = [] then none else some n

/-- JS `String.prototype.startsWith`. -/
def startsWithS : Str → Str → Bool
  | _, [] => true
  | [], _ :: _ => false
  | c :: s, p :: ps => if c = p then startsWithS s ps else false

/-- JS falsiness for a possibly-absent string: `null`/`undefined` and `""`
    are falsy. -/
def falsyS : Option Str → Bool
  | none => true
  | some s => s.isEmpty

/-- JS `x || null` on a possibly-absent string. -/
def jsOrNullS (o : Option Str) : Option Str := if falsyS o then none else o

/-- JS `x || ""` on a possibly-absent string. -/
def jsOrEmpty (o : Option Str) : Str :=
  match o with
  | some s => s
  | none => []

/-- JS `a || b` where both operands are possibly-absent strings. -/
def jsOrOpt (a b : Option Str) : Option Str := if falsyS a then b else a

/-- Case folding used for the case-insensitive regex tests. -/
def lowerS (s : Str) : Str := s.map Char.toLower

/-- Substring test: the denotation of `/pat/.test(s)` for a literal pattern. -/
def hasSub (s pat : Str) : Bool :=
  (List.range (s.length + 1)).any (fun i => startsWithS (s.drop i) pat)

/-- JS `Array.prototype.join(" ")`. -/
def joinSp : List Str → Str
  | [] => []
  | [s] => s
  | s :: rest => s ++ ' ' :: joinSp rest

theorem startsWithS_append_self (p t : Str) : startsWithS (p ++ t) p = true := by
  induction p with
  | nil => simp [startsWithS]
  | cons c cs ih => simp [startsWithS, ih]

theorem startsWithS_append_left (s : Str) {t p : Str}
    (h : startsWithS t p = true) : startsWithS (s ++ t) (s ++ p) = true := by
  induction s with
  | nil => simpa using h
  | cons c cs ih => simp [startsWithS, ih]

/-! ## normalizeUrl (fetch_medex_brand_details.js lines 339-344, part_001 lines 822-827) -/

def ORIGINC : Str := "https://medex.com.bd".toList

def httpPre : Str := "http".toList

def slashPre : Str := "/".toList

/-- `normalizeUrl` from the per-item detail fetchers: empty (falsy) input is
    returned as-is; an `http…` URL is unchanged; a rooted path is prefixed
    with the origin; anything else gets `origin + "/" +`. -/
def normalizeUrl (u : Str) : Str :=
  if u = [] then u
  else if startsWithS u httpPre then u
  else if startsWithS u slashPre then ORIGINC ++ u
  else ORIGINC ++ slashPre ++ u

theorem ORIGINC_eq : ORIGINC = httpPre ++ "s://medex.com.bd".toList := by decide

theorem startsWithS_ORIGINC_append (u : Str) :
    startsWithS (ORIGINC ++ u) httpPre = true := by
  rw [ORIGINC_eq, List.append_assoc]
  exact startsWithS_append_self httpPre _

theorem ORIGINC_append_ne_nil (u : Str) : ORIGINC ++ u ≠ [] := by
  simp [ORIGINC]

theorem normalizeUrl_of_http (u : Str) (h0 : u ≠ [])
    (h : startsWithS u httpPre = true) : normalizeUrl u = u := by
  simp [normalizeUrl, h0, h]

/-- C9: `normalizeUrl` is idempotent on every string, and returns any string
    that already starts with `"http"` unchanged. -/
theorem normalizeUrl_idem (u : Str) :
    normalizeUrl (normalizeUrl u) = normalizeUrl u ∧
    (startsWithS u httpPre = true → normalizeUrl u = u) := by
  constructor
  · by_cases h0 : u = []
    · simp [normalizeUrl, h0]
    · by_cases h1 : startsWithS u httpPre = true
      · rw [normalizeUrl_of_http u h0 h1, normalizeUrl_of_http u h0 h1]
      · by_cases h2 : startsWithS u slashPre = true
        · have hv : normalizeUrl u = ORIGINC ++ u := by
            simp [normalizeUrl, h0, h1, h2]
          rw [hv]
          exact normalizeUrl_of_http _ (ORIGINC_append_ne_nil u)
            (startsWithS_ORIGINC_append u)
        · have hv : normalizeUrl u = ORIGINC ++ (slashPre ++ u) := by
            simp [normalizeUrl, h0, h1, h2]
          rw [hv]
          exact normalizeUrl_of_http _ (ORIGINC_append_ne_nil (slashPre ++ u))
            (startsWithS_ORIGINC_append (slashPre ++ u))
  · intro h
    have h0 : u ≠ [] := by
      intro hu; rw [hu] at h; simp [startsWithS, httpPre] at h
    exact normalizeUrl_of_http u h0 h

def c9Url : Str := "http://medex.com.bd/brands/77".toList

/-- Witness for C9 at a concrete URL starting with "http". -/
theorem normalizeUrl_idem_witness :
    normalizeUrl (normalizeUrl c9Url) = normalizeUrl c9Url ∧ normalizeUrl c9Url = c9Url :=
  ⟨(normalizeUrl_idem c9Url).1, (normalizeUrl_idem c9Url).2 (by decide)⟩

/-! ## fetchWithRetries (scrape_medex_brands_file_split_v3.js lines 63-77,
    identically part_000 lines 45-59)

The network is an oracle mapping the (0-based) attempt number to the outcome
of that attempt; an `err` outcome carries the denotation of
`err.message || String(err)`. -/

inductive FetchOutcome where
  | ok (html finalUrl : Str)
  | err (msg : Str)
deriving DecidableEq

structure FetchResult where
  success : Bool
  page : Nat
  html : Option Str
  finalUrl : Option Str
  error : Option Str
deriving DecidableEq

def unknownS : Str := "unknown".toList

/-- The `{ success:false, page, error: lastErr ? … : "unknown" }` result. -/
def mkFail (page : Nat) (lastErr : Option Str) : FetchResult :=
  { success := false, page := page, html := none, finalUrl := none,
    error := some (match lastErr with | some m => m | none => unknownS) }

/-- The `while (attempt < maxRetries)` loop of `fetchWithRetries`; `attempt`
    counts performed fetch attempts, `remaining` is `maxRetries - attempt`.
    Returns the result together with the number of attempts performed. -/
def fetchLoop (oracle : Nat → FetchOutcome) (page : Nat) :
    Nat → Option Str → Nat → FetchResult × Nat
  | attempt, lastErr, 0 => (mkFail page lastErr, attempt)
  | attempt, lastErr, remaining + 1 =>
    match oracle attempt with
    | .ok h f =>
      ({ success := true, page := page, html := some h, finalUrl := some f,
         error := none }, attempt + 1)
    | .err m =>
      have _ := lastErr
      fetchLoop oracle page (attempt + 1) (some m) remaining

/-- `fetchWithRetries(page, maxRetries)`: `maxRetries` is kept as an integer
    so that out-of-contract non-positive budgets are representable. -/
def fetchWithRetries (oracle : Nat → FetchOutcome) (page : Nat) (maxRetries : Int) :
    FetchResult × Nat :=
  fetchLoop oracle page 0 none maxRetries.toNat

theorem fetchLoop_err_step (oracle : Nat → FetchOutcome) (page : Nat)
    (a : Nat) (le : Option Str) (m : Str) (r : Nat) (hErr : oracle a = .err m) :
    fetchLoop oracle page a le (r + 1) = fetchLoop oracle page (a + 1) (some m) r := by
  simp only [fetchLoop, hErr]

theorem fetchLoop_ok_step (oracle : Nat → FetchOutcome) (page : Nat)
    (a : Nat) (le : Option Str) (h f : Str) (r : Nat) (hOk : oracle a = .ok h f) :
    fetchLoop oracle page a le (r + 1) =
      ({ success := true, page := page, html := some h, finalUrl := some f,
         error := none }, a + 1) := by
  simp only [fetchLoop, hOk]

theorem fetchLoop_count_le (oracle : Nat → FetchOutcome) (page : Nat) :
    ∀ (r a : Nat) (le : Option Str), (fetchLoop oracle page a le r).2 ≤ a + r := by
  intro r
  induction r with
  | zero => intro a le; simp [fetchLoop]
  | succ n ih =>
    intro a le
    cases hoa : oracle a with
    | ok h f =>
      rw [fetchLoop_ok_step oracle page a le h f n hoa]
      omega
    | err m =>
      rw [fetchLoop_err_step oracle page a le m n hoa]
      exact le_trans (ih (a + 1) (some m)) (by omega)

theorem fetchLoop_fail_has_error (oracle : Nat → FetchOutcome) (page : Nat) :
    ∀ (r a : Nat) (le : Option Str),
      (fetchLoop oracle page a le r).1.success = false →
      (fetchLoop oracle page a le r).1.error ≠ none := by
  intro r
  induction r with
  | zero => intro a le _; simp [fetchLoop, mkFail]
  | succ n ih =>
    intro a le
    cases hoa : oracle a with
    | ok h f =>
      rw [fetchLoop_ok_step oracle page a le h f n hoa]
      intro h1; simp at h1
    | err m =>
      rw [fetchLoop_err_step oracle page a le m n hoa]
      exact ih (a + 1) (some m)

theorem fetchLoop_all_err (oracle : Nat → FetchOutcome) (page : Nat) (errs : Nat → Str) :
    ∀ (r a : Nat) (le : Option Str), 1 ≤ r →
      (∀ i, a ≤ i → i < a + r → oracle i = .err (errs i)) →
      fetchLoop oracle page a le r = (mkFail page (some (errs (a + r - 1))), a + r) := by
  intro r
  induction r with
  | zero => intro a le h; omega
  | succ n ih =>
    intro a le _ hall
    have ha : oracle a = .err (errs a) := hall a (Nat.le_refl a) (by omega)
    cases n with
    | zero =>
      rw [fetchLoop_err_step oracle page a le (errs a) 0 ha]
      simp [fetchLoop, mkFail]
    | succ k =>
      have hrec := ih (a + 1) (some (errs a)) (by omega)
        (fun i h1 h2 => hall i (by omega) (by omega))
      rw [fetchLoop_err_step oracle page a le (errs a) (k + 1) ha, hrec]
      have e1 : a + 1 + (k + 1) = a + (k + 1 + 1) := by omega
      rw [e1]

/-- C2: for every fetch oracle, page and `maxAttempts ≥ 1`, `fetchWithRetries`
    performs at most `maxAttempts` attempts, represents every failure in the
    returned value (a non-success result always carries an error message,
    nothing is thrown), and when every attempt fails it returns the failure
    result carrying the last attempt's error message after exactly
    `maxAttempts` attempts. -/
theorem fetchWithRetries_spec (oracle : Nat → FetchOutcome) (page : Nat)
    (m : Int) (errs : Nat → Str) (hm : 1 ≤ m) :
    (fetchWithRetries oracle page m).2 ≤ m.toNat ∧
    ((fetchWithRetries oracle page m).1.success = false →
      (fetchWithRetries oracle page m).1.error ≠ none) ∧
    ((∀ i, i < m.toNat → oracle i = .err (errs i)) →
      fetchWithRetries oracle page m =
        (mkFail page (some (errs (m.toNat - 1))), m.toNat)) := by
  refine ⟨?_, ?_, ?_⟩
  · simpa using fetchLoop_count_le oracle page m.toNat 0 none
  · exact fetchLoop_fail_has_error oracle page m.toNat 0 none
  · intro hall
    have h1 : 1 ≤ m.toNat := by omega
    have := fetchLoop_all_err oracle page errs m.toNat 0 none h1
      (fun i _ h2 => hall i (by omega))
    simpa [fetchWithRetries] using this

def c2Oracle : Nat → FetchOutcome := fun i => .err (if i = 0 then "boom0".toList else "boom1".toList)

def c2Errs : Nat → Str := fun i => if i = 0 then "boom0".toList else "boom1".toList

/-- Witness for C2: a two-attempt budget against an always-failing oracle. -/
theorem fetchWithRetries_spec_witness :
    (1 : Int) ≤ 2 ∧
    ((fetchWithRetries c2Oracle 7 2).2 ≤ (2 : Int).toNat ∧
      ((fetchWithRetries c2Oracle 7 2).1.success = false →
        (fetchWithRetries c2Oracle 7 2).1.error ≠ none) ∧
      ((∀ i, i < (2 : Int).toNat → c2Oracle i = .err (c2Errs i)) →
        fetchWithRetries c2Oracle 7 2 =
          (mkFail 7 (some (c2Errs ((2 : Int).toNat - 1))), (2 : Int).toNat))) :=
  ⟨by decide, fetchWithRetries_spec c2Oracle 7 2 c2Errs (by decide)⟩

/-- C10: a non-positive retry budget performs zero fetch attempts and returns
    the failure result whose error is the literal string "unknown". -/
theorem fetchWithRetries_nonpositive (oracle : Nat → FetchOutcome) (page : Nat)
    (m : Int) (hm : m ≤ 0) :
    fetchWithRetries oracle page m = (mkFail page none, 0) ∧
    (fetchWithRetries oracle page m).1.error = some unknownS := by
  have h0 : m.toNat = 0 := Int.toNat_of_nonpos hm
  constructor
  · simp [fetchWithRetries, h0, fetchLoop]
  · simp [fetchWithRetries, h0, fetchLoop, mkFail]

/-- Witness for C10 at `maxRetries = -3`. -/
theorem fetchWithRetries_nonpositive_witness :
    (-3 : Int) ≤ 0 ∧
    (fetchWithRetries c2Oracle 4 (-3) = (mkFail 4 none, 0) ∧
      (fetchWithRetries c2Oracle 4 (-3)).1.error = some unknownS) :=
  ⟨by decide, fetchWithRetries_nonpositive c2Oracle 4 (-3) (by decide)⟩

/-! ## Pricing (src/unnamed/part_001, parseBrandDetail lines 177-232)

`packageEntries` is the list of (label, price, pack_size_info) triples the DOM
scan pushed; the dedup-by-(label,price) pass, the case-insensitive label
resolution and the first-entry defaults are embedded below. -/

structure PackageEntry where
  label : Option Str
  price : Option Str
  pack_size_info : Option Str
deriving DecidableEq

structure Pricing where
  unit_price : Option Str
  strip_price : Option Str
  pack_size_info : Option Str
  packages : List PackageEntry
deriving DecidableEq

/-- `(p.label || "") + "||" + (p.price || "")`, the dedup key. -/
def pkKey (p : PackageEntry) : Str :=
  jsOrEmpty p.label ++ "||".toList ++ jsOrEmpty p.price

/-- The `seenPK` loop: keep an entry iff its key was not seen before. -/
def dedupPackages : List PackageEntry → List Str → List PackageEntry
  | [], _ => []
  | p :: rest, seen =>
    if pkKey p ∈ seen then dedupPackages rest seen
    else p :: dedupPackages rest (pkKey p :: seen)

def unitPat : Str := "unit price".toList

def stripPat : Str := "strip price".toList

/-- `/pat/i.test(s)` for an all-lowercase literal pattern. -/
def icontains (s pat : Str) : Bool := hasSub (lowerS s) pat

/-- One step of the resolution loop for `unit_price` / `strip_price`:
    `if (!acc && /pat/i.test(p.label || "")) acc = p.price`. -/
def priceStep (pat : Str) (acc : Option Str) (p : PackageEntry) : Option Str :=
  if falsyS acc && icontains (jsOrEmpty p.label) pat then p.price else acc

/-- One step of the resolution loop for `pack_size_info`. -/
def psiStep (acc : Option Str) (p : PackageEntry) : Option Str :=
  if falsyS acc && !falsyS p.pack_size_info then p.pack_size_info else acc

/-- The single loop over `packages` updating the three accumulators. -/
def resolveStep (acc : Option Str × Option Str × Option Str) (p : PackageEntry) :
    Option Str × Option Str × Option Str :=
  (priceStep unitPat acc.1 p, priceStep stripPat acc.2.1 p, psiStep acc.2.2 p)

/-- The pricing assembly of part_001's `parseBrandDetail`: dedup, resolve by
    label, apply the first-entry defaults, normalise falsy values to null. -/
def mkPricing (packageEntries : List PackageEntry) : Pricing :=
  let packages := dedupPackages packageEntries []
  let r := packages.foldl resolveStep (none, none, none)
  let up := r.1
  let sp := r.2.1
  let psi := r.2.2
  let up2 := if falsyS up then
      (match packages with
       | [] => up
       | p0 :: _ => jsOrNullS p0.price)
    else up
  let psi2 := if falsyS psi then
      (match packages with
       | [] => psi
       | p0 :: _ => jsOrNullS p0.pack_size_info)
    else psi
  { unit_price := jsOrNullS up2, strip_price := jsOrNullS sp,
    pack_size_info := jsOrNullS psi2, packages := packages }

/-- Modelled from the spec: "deduplicated by exact (label, price) text match
    preserving first-seen order" as a direct first-occurrence filter. -/
def firstSeenFilter : List PackageEntry → List PackageEntry
  | [] => []
  | p :: rest =>
    p :: firstSeenFilter (rest.filter (fun q => pkKey q ≠ pkKey p))
termination_by l => l.length
decreasing_by
  simp only [List.length_cons]
  exact Nat.lt_succ_of_le (List.length_filter_le _ _)

/-- Modelled from the spec: the price of the first entry whose label matches
    the pattern and whose price is truthy. -/
def firstTruthyPrice (pat : Str) : List PackageEntry → Option Str
  | [] => none
  | p :: rest =>
    if icontains (jsOrEmpty p.label) pat && !falsyS p.price then p.price
    else firstTruthyPrice pat rest

/-- Modelled from the spec: the first truthy `pack_size_info` among entries. -/
def firstTruthyPsi : List PackageEntry → Option Str
  | [] => none
  | p :: rest =>
    if !falsyS p.pack_size_info then p.pack_size_info else firstTruthyPsi rest

theorem jsOrNullS_idem (o : Option Str) : jsOrNullS (jsOrNullS o) = jsOrNullS o := by
  cases o with
  | none => rfl
  | some s => by_cases h : s.isEmpty <;> simp [jsOrNullS, falsyS, h]

theorem jsOrNullS_of_falsy {o : Option Str} (h : falsyS o = true) : jsOrNullS o = none := by
  simp [jsOrNullS, h]

theorem jsOrNullS_of_truthy {o : Option Str} (h : falsyS o = false) : jsOrNullS o = o := by
  simp [jsOrNullS, h]

theorem dedupPackages_eq_firstSeenFilter :
    ∀ (l : List PackageEntry) (seen : List Str),
      dedupPackages l seen = firstSeenFilter (l.filter (fun p => pkKey p ∉ seen)) := by
  intro l
  induction l with
  | nil => intro seen; simp [dedupPackages, firstSeenFilter]
  | cons p rest ih =>
    intro seen
    by_cases hp : pkKey p ∈ seen
    · have h1 : dedupPackages (p :: rest) seen = dedupPackages rest seen := by
        simp [dedupPackages, hp]
      have h2 : List.filter (fun q => decide (pkKey q ∉ seen)) (p :: rest)
          = List.filter (fun q => decide (pkKey q ∉ seen)) rest := by
        simp [List.filter_cons, hp]
      rw [h1, h2, ih seen]
    · have h1 : dedupPackages (p :: rest) seen
          = p :: dedupPackages rest (pkKey p :: seen) := by
        simp [dedupPackages, hp]
      have h2 : List.filter (fun q => decide (pkKey q ∉ seen)) (p :: rest)
          = p :: List.filter (fun q => decide (pkKey q ∉ seen)) rest := by
        simp [List.filter_cons, hp]
      rw [h1, h2]
      have h3 : firstSeenFilter
            (p :: List.filter (fun q => decide (pkKey q ∉ seen)) rest)
          = p :: firstSeenFilter
              ((List.filter (fun q => decide (pkKey q ∉ seen)) rest).filter
                (fun q => decide (pkKey q ≠ pkKey p))) := by
        simp [firstSeenFilter]
      rw [h3, ih (pkKey p :: seen)]
      congr 1
      rw [List.filter_filter]
      congr 1
      apply List.filter_congr
      intro q _
      by_cases hq1 : pkKey q = pkKey p <;> by_cases hq2 : pkKey q ∈ seen <;>
        simp [hq1, hq2]

theorem foldl_resolveStep_split (l : List PackageEntry)
    (a b c : Option Str) :
    l.foldl resolveStep (a, b, c) =
      (l.foldl (priceStep unitPat) a, l.foldl (priceStep stripPat) b,
       l.foldl psiStep c) := by
  induction l generalizing a b c with
  | nil => rfl
  | cons p rest ih => simp only [List.foldl_cons, resolveStep, ih]

theorem foldl_priceStep_truthy (pat : Str) (l : List PackageEntry)
    (a : Option Str) (h : falsyS a = false) :
    l.foldl (priceStep pat) a = a := by
  induction l with
  | nil => rfl
  | cons p rest ih => simp only [List.foldl_cons, priceStep, h]; simpa using ih

theorem foldl_psiStep_truthy (l : List PackageEntry)
    (a : Option Str) (h : falsyS a = false) :
    l.foldl psiStep a = a := by
  induction l with
  | nil => rfl
  | cons p rest ih => simp only [List.foldl_cons, psiStep, h]; simpa using ih

theorem foldl_priceStep_falsy (pat : Str) (l : List PackageEntry) :
    ∀ (a : Option Str), falsyS a = true →
      jsOrNullS (l.foldl (priceStep pat) a) = firstTruthyPrice pat l := by
  induction l with
  | nil => intro a ha; simp [firstTruthyPrice, jsOrNullS_of_falsy ha]
  | cons p rest ih =>
    intro a ha
    simp only [List.foldl_cons, priceStep, ha, Bool.true_and, firstTruthyPrice]
    by_cases hc : icontains (jsOrEmpty p.label) pat = true
    · simp only [hc, if_true, Bool.true_and]
      by_cases hr : falsyS p.price = true
      · simp only [hr, Bool.not_true, Bool.false_eq_true, if_false]
        exact ih p.price hr
      · have hr2 : falsyS p.price = false := by
          cases h : falsyS p.price
          · rfl
          · exact absurd h hr
        simp only [hr2, Bool.not_false, if_true]
        rw [foldl_priceStep_truthy pat rest p.price hr2]
        exact jsOrNullS_of_truthy hr2
    · have hc2 : icontains (jsOrEmpty p.label) pat = false := by
        cases h : icontains (jsOrEmpty p.label) pat
        · rfl
        · exact absurd h hc
      simp only [hc2, Bool.false_eq_true, if_false, Bool.false_and]
      exact ih a ha

theorem foldl_psiStep_falsy (l : List PackageEntry) :
    ∀ (a : Option Str), falsyS a = true →
      jsOrNullS (l.foldl psiStep a) = firstTruthyPsi l := by
  induction l with
  | nil => intro a ha; simp [firstTruthyPsi, jsOrNullS_of_falsy ha]
  | cons p rest ih =>
    intro a ha
    simp only [List.foldl_cons, psiStep, ha, Bool.true_and, firstTruthyPsi]
    by_cases hr : falsyS p.pack_size_info = true
    · simp only [hr, Bool.not_true, Bool.false_eq_true, if_false]
      exact ih a ha
    · have hr2 : falsyS p.pack_size_info = false := by
        cases h : falsyS p.pack_size_info
        · rfl
        · exact absurd h hr
      simp only [hr2, Bool.not_false, if_true]
      rw [foldl_psiStep_truthy rest p.pack_size_info hr2]
      exact jsOrNullS_of_truthy hr2

theorem jsOrNullS_eq_some {o : Option Str} {v : Str} (h : jsOrNullS o = some v) :
    falsyS o = false ∧ o = some v := by
  by_cases hf : falsyS o = true
  · simp [jsOrNullS, hf] at h
  · have hf2 : falsyS o = false := by
      cases hb : falsyS o
      · rfl
      · exact absurd hb hf
    refine ⟨hf2, ?_⟩
    simpa [jsOrNullS, hf2] using h

theorem jsOrNullS_eq_none {o : Option Str} (h : jsOrNullS o = none) :
    falsyS o = true := by
  cases hb : falsyS o
  · simp [jsOrNullS, hb] at h
    simp [h, falsyS] at hb
  · rfl

theorem truthy_ne_none {o : Option Str} (h : falsyS o = false) : o ≠ none := by
  cases o with
  | none => simp [falsyS] at h
  | some s => simp

/-- C6 (amended): the package triples are deduplicated by exact (label, price)
    text match preserving first-seen order; `unit_price` and `strip_price`
    resolve to the first entry whose label case-insensitively contains
    "unit price" / "strip price" and whose price is truthy; when no entry
    resolves, the first deduplicated entry's price and pack-size info serve as
    defaults, so the pricing result is not fully null whenever the first
    deduplicated entry carries a truthy price or a truthy pack-size info. -/
theorem pricing_resolution (l : List PackageEntry) :
    dedupPackages l [] = firstSeenFilter l ∧
    (mkPricing l).strip_price = firstTruthyPrice stripPat (dedupPackages l []) ∧
    (mkPricing l).unit_price =
      (match firstTruthyPrice unitPat (dedupPackages l []) with
       | some pr => some pr
       | none =>
         match dedupPackages l [] with
         | [] => none
         | p0 :: _ => jsOrNullS p0.price) ∧
    (mkPricing l).pack_size_info =
      (match firstTruthyPsi (dedupPackages l []) with
       | some v => some v
       | none =>
         match dedupPackages l [] with
         | [] => none
         | p0 :: _ => jsOrNullS p0.pack_size_info) ∧
    (∀ p0 rest, dedupPackages l [] = p0 :: rest →
      (falsyS p0.price = false ∨ falsyS p0.pack_size_info = false) →
      ¬((mkPricing l).unit_price = none ∧ (mkPricing l).pack_size_info = none)) := by
  have hsplit := foldl_resolveStep_split (dedupPackages l []) none none none
  have hup := foldl_priceStep_falsy unitPat (dedupPackages l []) none rfl
  have hsp := foldl_priceStep_falsy stripPat (dedupPackages l []) none rfl
  have hpsi := foldl_psiStep_falsy (dedupPackages l []) none rfl
  have hstrip : (mkPricing l).strip_price
      = jsOrNullS ((dedupPackages l []).foldl (priceStep stripPat) none) := by
    show jsOrNullS ((dedupPackages l []).foldl resolveStep (none, none, none)).2.1 = _
    rw [hsplit]
  have hunit : (mkPricing l).unit_price
      = (match firstTruthyPrice unitPat (dedupPackages l []) with
         | some pr => some pr
         | none =>
           match dedupPackages l [] with
           | [] => none
           | p0 :: _ => jsOrNullS p0.price) := by
    show jsOrNullS
        (if falsyS ((dedupPackages l []).foldl resolveStep (none, none, none)).1 then
          (match dedupPackages l [] with
           | [] => ((dedupPackages l []).foldl resolveStep (none, none, none)).1
           | p0 :: _ => jsOrNullS p0.price)
        else ((dedupPackages l []).foldl resolveStep (none, none, none)).1) = _
    rw [hsplit]
    cases hft : firstTruthyPrice unitPat (dedupPackages l []) with
    | some pr =>
      rw [hft] at hup
      obtain ⟨hf, he⟩ := jsOrNullS_eq_some hup
      rw [he] at hf
      rw [he]
      simp only [hf, Bool.false_eq_true, if_false]
      exact jsOrNullS_of_truthy hf
    | none =>
      rw [hft] at hup
      have hf := jsOrNullS_eq_none hup
      simp only [hf, if_true]
      cases hd : dedupPackages l [] with
      | nil =>
        rw [hd] at hup
        simpa using hup
      | cons p0 rest => exact jsOrNullS_idem p0.price
  have hpack : (mkPricing l).pack_size_info
      = (match firstTruthyPsi (dedupPackages l []) with
         | some v => some v
         | none =>
           match dedupPackages l [] with
           | [] => none
           | p0 :: _ => jsOrNullS p0.pack_size_info) := by
    show jsOrNullS
        (if falsyS ((dedupPackages l []).foldl resolveStep (none, none, none)).2.2 then
          (match dedupPackages l [] with
           | [] => ((dedupPackages l []).foldl resolveStep (none, none, none)).2.2
           | p0 :: _ => jsOrNullS p0.pack_size_info)
        else ((dedupPackages l []).foldl resolveStep (none, none, none)).2.2) = _
    rw [hsplit]
    cases hft : firstTruthyPsi (dedupPackages l []) with
    | some v =>
      rw [hft] at hpsi
      obtain ⟨hf, he⟩ := jsOrNullS_eq_some hpsi
      rw [he] at hf
      rw [he]
      simp only [hf, Bool.false_eq_true, if_false]
      exact jsOrNullS_of_truthy hf
    | none =>
      rw [hft] at hpsi
      have hf := jsOrNullS_eq_none hpsi
      simp only [hf, if_true]
      cases hd : dedupPackages l [] with
      | nil =>
        rw [hd] at hpsi
        simpa using hpsi
      | cons p0 rest => exact jsOrNullS_idem p0.pack_size_info
  refine ⟨?_, by rw [hstrip]; exact hsp, hunit, hpack, ?_⟩
  · have := dedupPackages_eq_firstSeenFilter l []
    simpa using this
  · intro p0 rest hpk hor hcontra
    obtain ⟨hu, hps⟩ := hcontra
    cases hor with
    | inl hpr =>
      rw [hunit, hpk] at hu
      cases hft : firstTruthyPrice unitPat (p0 :: rest) with
      | some pr => rw [hft] at hu; simp at hu
      | none =>
        rw [hft] at hu
        simp only [jsOrNullS_of_truthy hpr] at hu
        exact truthy_ne_none hpr hu
    | inr hpr =>
      rw [hpack, hpk] at hps
      cases hft : firstTruthyPsi (p0 :: rest) with
      | some v => rw [hft] at hps; simp at hps
      | none =>
        rw [hft] at hps
        simp only [jsOrNullS_of_truthy hpr] at hps
        exact truthy_ne_none hpr hps

def c6Bad : List PackageEntry :=
  [{ label := some ("Also available as".toList), price := none, pack_size_info := none }]

/-- Counterexample for C6 as stated: a single discovered package entry whose
    price and pack-size spans were empty yields a non-empty deduplicated
    package list, yet the resolved pricing is fully null. -/
theorem pricing_fully_null_counterexample :
    dedupPackages c6Bad [] = c6Bad ∧
    (mkPricing c6Bad).unit_price = none ∧
    (mkPricing c6Bad).strip_price = none ∧
    (mkPricing c6Bad).pack_size_info = none := by decide

def c6Good : List PackageEntry :=
  [{ label := some ("Unit Price:".toList), price := some ("12.00".toList),
     pack_size_info := none },
   { label := some ("Unit Price:".toList), price := some ("12.00".toList),
     pack_size_info := none },
   { label := some ("Strip Price:".toList), price := some ("120.00".toList),
     pack_size_info := some ("(10 x 10)".toList) }]

/-- Witness for C6 on a concrete package list with a duplicate entry and
    resolvable labels. -/
theorem pricing_resolution_witness :
    dedupPackages c6Good [] = firstSeenFilter c6Good ∧
    (mkPricing c6Good).strip_price = firstTruthyPrice stripPat (dedupPackages c6Good []) ∧
    ((dedupPackages c6Good [] = [c6Good.get ⟨0, by decide⟩, c6Good.get ⟨2, by decide⟩]) ∧
      falsyS (c6Good.get ⟨0, by decide⟩).price = false) ∧
    ¬((mkPricing c6Good).unit_price = none ∧ (mkPricing c6Good).pack_size_info = none) := by
  refine ⟨(pricing_resolution c6Good).1, (pricing_resolution c6Good).2.1, by decide, ?_⟩
  exact (pricing_resolution c6Good).2.2.2.2 (c6Good.get ⟨0, by decide⟩)
    [c6Good.get ⟨2, by decide⟩] (by decide) (Or.inl (by decide))

/-! ## Named sections of the detail records

`fetch_medex_brand_details.js` (lines 162-177) builds its `sections` object by
iterating the fixed id list and inserting a key only when the extracted text
is non-null; `part_001` (lines 755-771) builds `promoted` by inserting every
id of its list with the (possibly empty) structured parse.  The extracted
text per id and the structured parse per id are projections of the DOM,
passed as functions. -/

structure SectionGroup where
  title : Option Str
  information : Option Str
  items : List Str
deriving DecidableEq

def sectionIds : List Str :=
  ["indications", "mode_of_action", "dosage", "interaction", "contraindications",
   "side_effects", "pregnancy_cat", "precautions", "pediatric_uses",
   "overdose_effects", "drug_classes", "storage_conditions", "compound_summary",
   "commonly_asked_questions"].map String.toList

def promoteSections : List Str :=
  ["indications", "mode_of_action", "interaction", "contraindications",
   "side_effects", "pregnancy_cat", "precautions", "pediatric_uses",
   "overdose_effects", "storage_conditions", "description",
   "administration"].map String.toList

/-- The `for (const id of sectionIds) { … if (text) sections[id] = text; }`
    loop of fetch_medex_brand_details.js: a JS object as an ordered
    association list. -/
def buildSections (extract : Str → Option Str) : List Str → List (Str × Str)
  | [] => []
  | id :: rest =>
    match extract id with
    | some t => (id, t) :: buildSections extract rest
    | none => buildSections extract rest

/-- The `for (const sid of promoteSections) promoted[sid] = parse…(sid);`
    loop of part_001: every id is inserted. -/
def buildPromoted (g : Str → List SectionGroup) :
    List Str → List (Str × List SectionGroup)
  | [] => []
  | sid :: rest => (sid, g sid) :: buildPromoted g rest

/-- JS property read on an object modelled as an association list. -/
def lookupA {β : Type} (k : Str) : List (Str × β) → Option β
  | [] => none
  | (k2, v) :: rest => if k2 = k then some v else lookupA k rest

theorem lookupA_buildSections_of_not_mem (f : Str → Option Str) :
    ∀ (ids : List Str) (sid : Str), sid ∉ ids →
      lookupA sid (buildSections f ids) = none := by
  intro ids
  induction ids with
  | nil => intro sid _; rfl
  | cons id rest ih =>
    intro sid h
    simp only [List.mem_cons, not_or] at h
    obtain ⟨h1, h2⟩ := h
    cases hx : f id with
    | some t =>
      simp only [buildSections, hx, lookupA]
      rw [if_neg (fun he => h1 he.symm)]
      exact ih sid h2
    | none =>
      simp only [buildSections, hx]
      exact ih sid h2

theorem lookupA_buildSections_of_mem (f : Str → Option Str) :
    ∀ (ids : List Str) (sid : Str), sid ∈ ids → ids.Nodup →
      lookupA sid (buildSections f ids) = f sid := by
  intro ids
  induction ids with
  | nil => intro sid h _; cases h
  | cons id rest ih =>
    intro sid h hnd
    rw [List.nodup_cons] at hnd
    obtain ⟨hni, hnd2⟩ := hnd
    by_cases he : sid = id
    · subst he
      cases hx : f sid with
      | some t => simp [buildSections, hx, lookupA]
      | none =>
        simp only [buildSections, hx]
        rw [lookupA_buildSections_of_not_mem f rest sid hni]
    · have h2 : sid ∈ rest := by
        rcases List.mem_cons.mp h with h3 | h3
        · exact absurd h3 he
        · exact h3
      cases hx : f id with
      | some t =>
        simp only [buildSections, hx, lookupA]
        rw [if_neg (fun hh => he hh.symm)]
        exact ih sid h2 hnd2
      | none =>
        simp only [buildSections, hx]
        exact ih sid h2 hnd2

theorem lookupA_buildPromoted_of_mem (g : Str → List SectionGroup) :
    ∀ (ids : List Str) (sid : Str), sid ∈ ids → ids.Nodup →
      lookupA sid (buildPromoted g ids) = some (g sid) := by
  intro ids
  induction ids with
  | nil => intro sid h _; cases h
  | cons id rest ih =>
    intro sid h hnd
    rw [List.nodup_cons] at hnd
    obtain ⟨hni, hnd2⟩ := hnd
    by_cases he : sid = id
    · subst he
      simp [buildPromoted, lookupA]
    · have h2 : sid ∈ rest := by
        rcases List.mem_cons.mp h with h3 | h3
        · exact absurd h3 he
        · exact h3
      simp only [buildPromoted, lookupA]
      rw [if_neg (fun hh => he hh.symm)]
      exact ih sid h2 hnd2

/-- C8 (amended): every field written by the result-object constructors is
    explicitly present, but the two variants differ on named sections: in the
    part_001 variant every named section id is always present (bound to its
    possibly-empty group list), while in the fetch_medex_brand_details.js
    variant a named section id is present in `sections` exactly when its
    extracted text is non-null — absent markup leaves the key absent. -/
theorem sections_presence (f : Str → Option Str) (g : Str → List SectionGroup)
    (sid : Str) :
    (sid ∈ sectionIds → lookupA sid (buildSections f sectionIds) = f sid) ∧
    (sid ∈ promoteSections →
      lookupA sid (buildPromoted g promoteSections) = some (g sid)) := by
  constructor
  · intro h
    exact lookupA_buildSections_of_mem f sectionIds sid h (by decide)
  · intro h
    exact lookupA_buildPromoted_of_mem g promoteSections sid h (by decide)

/-- Counterexample for C8 as stated: on a page with no extractable section
    text, the fetch_medex_brand_details.js `sections` object is empty, so the
    named section "indications" is absent rather than explicitly null. -/
theorem sections_absent_counterexample :
    ("indications".toList ∈ sectionIds) ∧
    buildSections (fun _ => none) sectionIds = [] ∧
    lookupA ("indications".toList) (buildSections (fun _ => none) sectionIds) = none := by
  decide

def c8f : Str → Option Str :=
  fun sid => if sid = "dosage".toList then some ("Take daily".toList) else none

def c8g : Str → List SectionGroup := fun _ => []

/-- Witness for C8 at two concrete section ids. -/
theorem sections_presence_witness :
    ("dosage".toList ∈ sectionIds ∧ "indications".toList ∈ promoteSections) ∧
    lookupA ("dosage".toList) (buildSections c8f sectionIds) = c8f ("dosage".toList) ∧
    lookupA ("indications".toList) (buildPromoted c8g promoteSections)
      = some (c8g ("indications".toList)) :=
  ⟨by decide, (sections_presence c8f c8g ("dosage".toList)).1 (by decide),
   (sections_presence c8f c8g ("indications".toList)).2 (by decide)⟩

/-! ## Detail-Section Parser (src/unnamed/part_001, parseSectionToStructuredArray,
    lines 265-366)

The section body's direct child nodes are projected to: text nodes, strong
(heading) nodes with their text, list (`ul`/`ol`) nodes with all descendant
li texts, and other tags with their direct text (nested lists removed) plus
their nested li texts.  The container's full text (`normText($body)`) is an
independent projection of the same DOM, passed alongside. -/

inductive SNode where
  | text (t : Str)
  | strong (t : Str)
  | list (items : List Str)
  | other (direct : Str) (listItems : List Str)
deriving DecidableEq

structure SecAcc where
  out : List SectionGroup
  currTitle : Option Str
  currInfos : List Str
  currItems : List Str
deriving DecidableEq

/-- `flushCurrent()`: emit the accumulated group only if it has a non-null
    title, non-empty joined prose or non-empty cleaned items; reset. -/
def flushCurrent (a : SecAcc) : SecAcc :=
  let infosText := normWS (joinSp a.currInfos)
  let itemsArr := (a.currItems.map normWS).filter (fun s => s ≠ [])
  if a.currTitle ≠ none ∨ infosText ≠ [] ∨ itemsArr ≠ [] then
    ⟨a.out ++ [⟨jsOrNullS a.currTitle,
               if infosText = [] then none else some infosText, itemsArr⟩],
     none, [], []⟩
  else ⟨a.out, none, [], []⟩

/-- One child node of the traversal loop. -/
def secStep (a : SecAcc) : SNode → SecAcc
  | .text t =>
    let t2 := normWS t
    if t2 = [] then a else { a with currInfos := a.currInfos ++ [t2] }
  | .strong t =>
    let a2 := flushCurrent a
    { a2 with currTitle := normTextS t }
  | .list items =>
    { a with currItems := a.currItems ++ (items.map normWS).filter (fun s => s ≠ []) }
  | .other direct listItems =>
    let a2 := if normWS direct = [] then a
      else { a with currInfos := a.currInfos ++ [normWS direct] }
    { a2 with currItems := a2.currItems ++ (listItems.map normWS).filter (fun s => s ≠ []) }

def emptySecAcc : SecAcc := ⟨[], none, [], []⟩

/-- `parseSectionToStructuredArray`: traverse, final flush, and the fallback
    single group when traversal produced nothing but the container has text. -/
def parseSectionToStructuredArray (body : List SNode) (bodyFullText : Str) :
    List SectionGroup :=
  let a := body.foldl secStep emptySecAcc
  let out := (flushCurrent a).out
  if out = [] then
    match normTextS bodyFullText with
    | some full => [⟨none, some full, []⟩]
    | none => []
  else out

theorem parseSection_eq (body : List SNode) (bodyFullText : Str) :
    parseSectionToStructuredArray body bodyFullText =
      if (flushCurrent (body.foldl secStep emptySecAcc)).out = [] then
        (match normTextS bodyFullText with
         | some full => [⟨none, some full, []⟩]
         | none => [])
      else (flushCurrent (body.foldl secStep emptySecAcc)).out := rfl

/-- C4: a flush emits a SectionGroup only if the accumulated group has a
    non-null title, non-empty prose or non-empty items (titles come from
    `normText`, hence are never empty strings); and when the traversal
    produced zero groups but the container has any text, the parser emits
    exactly one fallback group with null title, the container's full cleaned
    text as information and empty items — so every section container with
    non-empty text yields at least one group. -/
theorem section_parser_flush_and_fallback :
    (∀ a : SecAcc, a.currTitle ≠ some [] →
      ((flushCurrent a).out = a.out ∨
        ∃ g, (flushCurrent a).out = a.out ++ [g] ∧
          (g.title ≠ none ∨ g.information ≠ none ∨ g.items ≠ []))) ∧
    (∀ (body : List SNode) (fullText : Str),
      (flushCurrent (body.foldl secStep emptySecAcc)).out = [] →
      ∀ f, normTextS fullText = some f →
        parseSectionToStructuredArray body fullText = [⟨none, some f, []⟩]) ∧
    (∀ (body : List SNode) (fullText : Str), normTextS fullText ≠ none →
      parseSectionToStructuredArray body fullText ≠ []) := by
  refine ⟨?_, ?_, ?_⟩
  · intro a hne
    by_cases hc : a.currTitle ≠ none ∨ normWS (joinSp a.currInfos) ≠ [] ∨
        (a.currItems.map normWS).filter (fun s => s ≠ []) ≠ []
    · right
      refine ⟨⟨jsOrNullS a.currTitle,
        if normWS (joinSp a.currInfos) = [] then none
        else some (normWS (joinSp a.currInfos)),
        (a.currItems.map normWS).filter (fun s => s ≠ [])⟩,
        by simp only [flushCurrent, if_pos hc], ?_⟩
      rcases hc with hc | hc | hc
      · left
        cases ht : a.currTitle with
        | none => exact absurd ht hc
        | some s =>
          cases s with
          | nil => exact absurd ht hne
          | cons c cs => simp [jsOrNullS, falsyS]
      · right; left
        simp only [if_neg hc]
        simp
      · right; right
        exact hc
    · left
      simp only [flushCurrent, if_neg hc]
  · intro body fullText hout f hf
    rw [parseSection_eq, if_pos hout, hf]
  · intro body fullText hn
    rw [parseSection_eq]
    by_cases hout : (flushCurrent (body.foldl secStep emptySecAcc)).out = []
    · rw [if_pos hout]
      cases hfull : normTextS fullText with
      | none => exact absurd hfull hn
      | some f => simp
    · rw [if_neg hout]
      exact hout

def c4Full : Str := "unstructured prose".toList

/-- Witness for C4: empty traversal with a non-empty container text takes the
    fallback branch and yields exactly one group. -/
theorem section_parser_flush_and_fallback_witness :
    (emptySecAcc.currTitle ≠ some [] ∧
      (flushCurrent (([] : List SNode).foldl secStep emptySecAcc)).out = [] ∧
      normTextS c4Full = some c4Full) ∧
    parseSectionToStructuredArray [] c4Full = [⟨none, some c4Full, []⟩] ∧
    parseSectionToStructuredArray [] c4Full ≠ [] :=
  ⟨⟨by decide, by decide, by decide⟩,
   section_parser_flush_and_fallback.2.1 [] c4Full (by decide) c4Full (by decide),
   section_parser_flush_and_fallback.2.2 [] c4Full (by decide)⟩

/-! ## Dosage parser (src/unnamed/part_001, parseBrandDetail lines 601-752)

A dosage-body child node is a text node, a strong node, a `ul` whose direct
`li` children are kept with their own child structure (direct strong children,
text, nested sub-lists), or another tag with its direct text and nested li
texts.  `pushGroup` is fallible because the source calls it with `infos =
null` on one path (`null.length` throws); the exception is propagated as an
`Except.error`, matching the try/catch in the caller. -/

inductive LiChild where
  | strongC (t : Str)
  | textC (t : Str)
  | ulC (items : List Str)
deriving DecidableEq

structure DLi where
  children : List LiChild
deriving DecidableEq

inductive DNode where
  | text (t : Str)
  | strong (t : Str)
  | ul (lis : List DLi)
  | other (direct : Str) (listItems : List Str)
deriving DecidableEq

structure DosageGroup where
  medication_type : Option Str
  information : Option Str
  instructions : List Str
deriving DecidableEq

/-- Denotation of a li child's raw text. -/
def liChildText : LiChild → Str
  | .strongC t => t
  | .textC t => t
  | .ulC items => joinSp items

/-- `$li.text()`. -/
def liFullText (li : DLi) : Str := (li.children.map liChildText).flatten

/-- Whether `$li.find("> strong").first()` is non-empty. -/
def liHasStrong (li : DLi) : Bool :=
  li.children.any (fun c => match c with | .strongC _ => true | _ => false)

/-- Text of the first direct strong child, when present. -/
def liFirstStrong (li : DLi) : Option Str :=
  li.children.findSome? (fun c => match c with | .strongC t => some t | _ => none)

/-- `$li.clone().children("strong").remove().end().text()`. -/
def liRestText (li : DLi) : Str :=
  ((li.children.filter
      (fun c => match c with | .strongC _ => false | _ => true)).map liChildText).flatten

/-- Item texts of `$li.find("ul").first()`. -/
def liSubItems (li : DLi) : List Str :=
  match li.children.findSome?
      (fun c => match c with | .ulC its => some its | _ => none) with
  | some its => its
  | none => []

/-- Item texts of every nested sub-list (for `$ul.find("li")` document order). -/
def liNestedItems (li : DLi) : List Str :=
  (li.children.map (fun c => match c with | .ulC its => its | _ => [])).flatten

/-- The list item visually begins with its own bold inline node. -/
def liBeginsBold (li : DLi) : Bool :=
  match li.children.head? with
  | some (.strongC _) => true
  | _ => false

/-- `$ul.find("li")` texts in document order: each direct li's full text
    followed by its nested sub-items. -/
def ulAllLiTexts (lis : List DLi) : List Str :=
  (lis.map (fun li => liFullText li :: liNestedItems li)).flatten

def typeErrMsg : Str := "TypeError: Cannot read properties of null".toList

/-- `pushGroup(groups, medType, infos, instr)`; `infos = null` throws on
    `infos.length`. -/
def pushGroup (groups : List DosageGroup) (medType : Option Str)
    (infos : Option (List Str)) (instr : List Str) : Except Str (List DosageGroup) :=
  match infos with
  | none => .error typeErrMsg
  | some infos =>
    let information : Option Str :=
      if infos = [] then none else some (normWS (joinSp infos))
    let instructions := (instr.map normWS).filter (fun s => s ≠ [])
    .ok (groups ++ [⟨jsOrNullS medType, information, instructions⟩])

structure DAcc where
  dosageArray : List DosageGroup
  currMed : Option Str
  currInfos : List Str
  currInstr : List Str
deriving DecidableEq

/-- The `if (currMed !== null || currInfos.length || currInstr.length)
    { pushGroup(…); reset }` guard used before strongs, bold lists and at the
    end. -/
def dosageFlush (a : DAcc) : Except Str DAcc :=
  if a.currMed ≠ none ∨ a.currInfos ≠ [] ∨ a.currInstr ≠ [] then
    match pushGroup a.dosageArray a.currMed (some a.currInfos) a.currInstr with
    | .error e => .error e
    | .ok arr => .ok ⟨arr, none, [], []⟩
  else .ok a

/-- One li of the special (bold-item) list branch. -/
def processBoldLi (groups : List DosageGroup) (li : DLi) :
    Except Str (List DosageGroup) :=
  match liFirstStrong li with
  | some st =>
    let medType := normTextS st
    let rest := normWS (liRestText li)
    let childInstr := ((liSubItems li).map normWS).filter (fun s => s ≠ [])
    pushGroup groups medType (some (if rest = [] then [] else [rest])) childInstr
  | none =>
    let t := normWS (liFullText li)
    if t = [] then .ok groups
    else pushGroup groups none none [t]

/-- One child node of the dosage traversal. -/
def dosageStep (a : DAcc) : DNode → Except Str DAcc
  | .text t =>
    let t2 := normWS t
    .ok (if t2 = [] then a else { a with currInfos := a.currInfos ++ [t2] })
  | .strong t =>
    match dosageFlush a with
    | .error e => .error e
    | .ok a2 => .ok { a2 with currMed := normTextS t }
  | .ul lis =>
    if lis.any liHasStrong then
      match dosageFlush a with
      | .error e => .error e
      | .ok a2 =>
        match lis.foldlM processBoldLi a2.dosageArray with
        | .error e => .error e
        | .ok arr => .ok { a2 with dosageArray := arr }
    else
      .ok { a with currInstr :=
        a.currInstr ++ ((ulAllLiTexts lis).map normWS).filter (fun s => s ≠ []) }
  | .other direct listItems =>
    let a2 := { a with currInstr :=
      a.currInstr ++ ((listItems.map normWS).filter (fun s => s ≠ [])) }
    let d := normWS direct
    .ok (if d = [] then a2 else { a2 with currInfos := a2.currInfos ++ [d] })

def emptyDAcc : DAcc := ⟨[], none, [], []⟩

/-- The full dosage extraction: traversal, final flush, plain-text fallback. -/
def parseDosage (body : List DNode) (bodyFullText : Str) :
    Except Str (List DosageGroup) :=
  match body.foldlM dosageStep emptyDAcc with
  | .error e => .error e
  | .ok a =>
    match dosageFlush a with
    | .error e => .error e
    | .ok a2 =>
      if a2.dosageArray = [] then
        match normTextS bodyFullText with
        | some plain => .ok [⟨none, some plain, []⟩]
        | none => .ok []
      else .ok a2.dosageArray

/-- The DosageGroup produced for one bold-led list item. -/
def boldLiGroup (li : DLi) : DosageGroup :=
  match liFirstStrong li with
  | some st =>
    let rest := normWS (liRestText li)
    let childInstr := ((liSubItems li).map normWS).filter (fun s => s ≠ [])
    ⟨jsOrNullS (normTextS st),
     if rest = [] then none else some (normWS rest),
     (childInstr.map normWS).filter (fun s => s ≠ [])⟩
  | none => ⟨none, none, []⟩

theorem dosageFlush_ok (a : DAcc) : ∃ a2, dosageFlush a = .ok a2 := by
  unfold dosageFlush
  by_cases h : a.currMed ≠ none ∨ a.currInfos ≠ [] ∨ a.currInstr ≠ []
  · rw [if_pos h]
    unfold pushGroup
    exact ⟨_, rfl⟩
  · rw [if_neg h]
    exact ⟨a, rfl⟩

theorem liBeginsBold_firstStrong (li : DLi) (h : liBeginsBold li = true) :
    ∃ st, liFirstStrong li = some st := by
  unfold liBeginsBold at h
  unfold liFirstStrong
  cases hc : li.children with
  | nil => rw [hc] at h; simp at h
  | cons c cs =>
    rw [hc] at h
    cases c with
    | strongC t => exact ⟨t, by simp [List.findSome?]⟩
    | textC t => simp at h
    | ulC its => simp at h

theorem liBeginsBold_hasStrong (li : DLi) (h : liBeginsBold li = true) :
    liHasStrong li = true := by
  unfold liBeginsBold at h
  unfold liHasStrong
  cases hc : li.children with
  | nil => rw [hc] at h; simp at h
  | cons c cs =>
    rw [hc] at h
    cases c with
    | strongC t => simp
    | textC t => simp at h
    | ulC its => simp at h

theorem processBoldLi_of_firstStrong (groups : List DosageGroup) (li : DLi)
    (st : Str) (hst : liFirstStrong li = some st) :
    processBoldLi groups li = .ok (groups ++ [boldLiGroup li]) := by
  unfold processBoldLi boldLiGroup
  rw [hst]
  unfold pushGroup
  by_cases hr : normWS (liRestText li) = []
  · simp [hr]
  · simp [hr, joinSp]

theorem foldlM_processBoldLi (lis : List DLi)
    (h : ∀ li ∈ lis, liBeginsBold li = true) :
    ∀ groups, lis.foldlM processBoldLi groups
      = .ok (groups ++ lis.map boldLiGroup) := by
  induction lis with
  | nil =>
    intro groups
    rw [List.foldlM_nil, List.map_nil, List.append_nil]
    rfl
  | cons li rest ih =>
    intro groups
    obtain ⟨st, hst⟩ := liBeginsBold_firstStrong li (h li (List.mem_cons_self li rest))
    rw [List.foldlM_cons, processBoldLi_of_firstStrong groups li st hst]
    show rest.foldlM processBoldLi (groups ++ [boldLiGroup li])
      = .ok (groups ++ boldLiGroup li :: rest.map boldLiGroup)
    rw [ih (fun li2 h2 => h li2 (List.mem_cons_of_mem li h2))
      (groups ++ [boldLiGroup li])]
    simp

/-- C5 (amended): a `ul` whose list items each begin with their own bold
    inline node first flushes the current group and then yields exactly one
    DosageGroup per list item (medication type from the item's bold text,
    information from the item's remaining text after removing the bold node,
    instructions from the item's first nested sub-list); a `ul` none of whose
    items has any direct bold child folds all of its item texts into the
    current group's instructions and creates no new groups (the code
    distinguishes the two patterns by the presence of a direct strong child,
    not by its leading position); and a dosage body consisting of such a bold
    list parses to exactly one group per item. -/
theorem dosage_bifurcation (a : DAcc) (lis : List DLi) :
    (lis ≠ [] → (∀ li ∈ lis, liBeginsBold li = true) →
      ∃ a2, dosageFlush a = .ok a2 ∧
        dosageStep a (.ul lis)
          = .ok { a2 with dosageArray := a2.dosageArray ++ lis.map boldLiGroup }) ∧
    ((∀ li ∈ lis, liHasStrong li = false) →
      dosageStep a (.ul lis)
        = .ok { a with currInstr :=
            a.currInstr ++ ((ulAllLiTexts lis).map normWS).filter (fun s => s ≠ []) }) ∧
    (lis ≠ [] → (∀ li ∈ lis, liBeginsBold li = true) →
      ∀ ft, parseDosage [.ul lis] ft = .ok (lis.map boldLiGroup)) := by
  have hflushEmpty : dosageFlush emptyDAcc = .ok emptyDAcc := by
    unfold dosageFlush
    rw [if_neg (by simp [emptyDAcc])]
  refine ⟨?_, ?_, ?_⟩
  · intro hne hall
    obtain ⟨a2, ha2⟩ := dosageFlush_ok a
    refine ⟨a2, ha2, ?_⟩
    have hany : lis.any liHasStrong = true := by
      cases lis with
      | nil => exact absurd rfl hne
      | cons li rest =>
        have hb := liBeginsBold_hasStrong li (hall li (List.mem_cons_self li rest))
        simp [hb]
    simp [dosageStep, hany, ha2, foldlM_processBoldLi lis hall]
  · intro hall
    have hanyf : lis.any liHasStrong = false := by
      cases h : lis.any liHasStrong
      · rfl
      · obtain ⟨li, hmem, hli⟩ := List.any_eq_true.mp h
        rw [hall li hmem] at hli
        cases hli
    simp [dosageStep, hanyf]
  · intro hne hall ft
    have hany : lis.any liHasStrong = true := by
      cases lis with
      | nil => exact absurd rfl hne
      | cons li rest =>
        have hb := liBeginsBold_hasStrong li (hall li (List.mem_cons_self li rest))
        simp [hb]
    have hstep : dosageStep emptyDAcc (.ul lis)
        = .ok ⟨lis.map boldLiGroup, none, [], []⟩ := by
      have h1 : dosageFlush ⟨[], none, [], []⟩ = .ok ⟨[], none, [], []⟩ := hflushEmpty
      simp [dosageStep, hany, h1, foldlM_processBoldLi lis hall, emptyDAcc]
    have hfold : ([DNode.ul lis]).foldlM dosageStep emptyDAcc
        = .ok ⟨lis.map boldLiGroup, none, [], []⟩ := by
      rw [List.foldlM_cons, hstep]
      rfl
    have hmapne : lis.map boldLiGroup ≠ [] := by
      cases lis with
      | nil => exact absurd rfl hne
      | cons li rest => simp
    have hflush2 : dosageFlush ⟨lis.map boldLiGroup, none, [], []⟩
        = .ok ⟨lis.map boldLiGroup, none, [], []⟩ := by
      unfold dosageFlush
      rw [if_neg (by simp)]
    simp [parseDosage, hfold, hflush2, hmapne]

def c5LisA : List DLi :=
  [⟨[.strongC ("Adults:".toList), .textC (" 500 mg thrice daily".toList),
     .ulC ["with water".toList, "after meals".toList]]⟩,
   ⟨[.strongC ("Children:".toList), .textC (" 250 mg twice daily".toList)]⟩]

def c5LisB : List DLi :=
  [⟨[.textC ("10 ml daily".toList)]⟩, ⟨[.textC ("shake well".toList)]⟩]

/-- Witness for C5: a two-item bold list yields one group per item; a plain
    list folds into the current instructions. -/
theorem dosage_bifurcation_witness :
    (c5LisA ≠ [] ∧ (∀ li ∈ c5LisA, liBeginsBold li = true) ∧
      (∀ li ∈ c5LisB, liHasStrong li = false)) ∧
    parseDosage [.ul c5LisA] [] = .ok (c5LisA.map boldLiGroup) ∧
    dosageStep emptyDAcc (.ul c5LisB)
      = .ok { emptyDAcc with currInstr :=
          emptyDAcc.currInstr
            ++ ((ulAllLiTexts c5LisB).map normWS).filter (fun s => s ≠ []) } :=
  ⟨⟨by decide, by decide, by decide⟩,
   (dosage_bifurcation emptyDAcc c5LisA).2.2 (by decide) (by decide) [],
   (dosage_bifurcation emptyDAcc c5LisB).2.1 (by decide)⟩

/-! ## Summary listing extractors

`parsePageByStructure` of scrape_medex_brands_file_split_v3.js (lines 80-155)
over `a.hoverable-block` anchors, and `parsePageByStructure` of
src/unnamed/part_000 (lines 62-113) over `ul.space-y-6 > li` items.  Each
listing node is projected to the attributes and texts the extractor reads. -/

structure MedexCol where
  text : Str
  hasCompanyChild : Bool
  isTop : Bool
  isStrength : Bool
deriving DecidableEq

structure MedexDataRow where
  icon1 : Option (Option Str × Option Str)
  icon2 : Option (Option Str × Option Str)
  topOwn : Str
  topFull : Str
  strengthGrey : Str
  strengthFull : Str
  cols : List MedexCol
  companyText : Str
deriving DecidableEq

structure MedexAnchor where
  href : Option Str
  dataRow : Option MedexDataRow
deriving DecidableEq

structure MedexRecord where
  name : Str
  strength : Option Str
  generic : Option Str
  company : Option Str
  medicine_type : Option Str
  source_url : Str
deriving DecidableEq

/-- `(alt || title || "").trim() || null` for a dosage-icon image. -/
def iconTypeOf (ic : Option Str × Option Str) : Option Str :=
  let t := trimS (jsOrEmpty (jsOrOpt ic.1 (jsOrOpt ic.2 (some []))))
  if t = [] then none else some t

def medexMedType (dr : MedexDataRow) : Option Str :=
  match dr.icon1 with
  | some ic => iconTypeOf ic
  | none =>
    match dr.icon2 with
    | some ic => iconTypeOf ic
    | none => none

/-- Name from `.data-row-top` with children removed, falling back to the full
    text. -/
def medexName (dr : MedexDataRow) : Str :=
  let name0 := trimS dr.topOwn
  if name0 = [] then trimS dr.topFull else name0

def medexStrength (dr : MedexDataRow) : Option Str :=
  let s0 := trimS dr.strengthGrey
  let s1 := if s0 = [] then trimS dr.strengthFull else s0
  if s1 = [] then none else some s1

def eqOptStr (txt : Str) (o : Option Str) : Bool :=
  match o with
  | some st => txt = st
  | none => false

/-- The third-column candidate followed by the first-unassigned-column scan. -/
def medexGeneric (dr : MedexDataRow) (name : Str) (strength : Option Str) :
    Option Str :=
  let generic0 : Option Str :=
    if 3 ≤ dr.cols.length then
      match dr.cols[2]? with
      | some c =>
        let cand := trimS c.text
        if cand ≠ [] ∧ ¬c.hasCompanyChild then some cand else none
      | none => none
    else none
  let generic1 : Option Str :=
    match generic0 with
    | some g => some g
    | none =>
      dr.cols.findSome? (fun c =>
        let txt := trimS c.text
        if txt = [] then none
        else if txt = name then none
        else if eqOptStr txt strength then none
        else if c.hasCompanyChild then none
        else if c.isTop ∨ c.isStrength then none
        else some txt)
  if generic1 = some [] then none else generic1

def companySuffixPats : List Str :=
  ["ltd", "limited", "plc", "pharma", "laboratories", "ltd."].map String.toList

/-- `/(Ltd|Limited|PLC|Pharma|Laboratories|Ltd\.)/i.test(s)`. -/
def companySuffixB (s : Str) : Bool :=
  companySuffixPats.any (fun p => hasSub (lowerS s) p)

def medexCompany (dr : MedexDataRow) : Option Str :=
  let c0 := trimS dr.companyText
  let company1 : Option Str :=
    if c0 ≠ [] then some c0
    else
      match dr.cols.getLast? with
      | some lastC =>
        let lastText := trimS lastC.text
        if companySuffixB lastText then some lastText else none
      | none => none
  if company1 = some [] then none else company1

/-- `href.startsWith("http") ? href : ORIGIN + href` with `href = attr || ""`. -/
def medexSourceUrl (a : MedexAnchor) : Str :=
  let href := jsOrEmpty a.href
  if startsWithS href httpPre then href else ORIGINC ++ href

/-- One `a.hoverable-block` listing entry of the v3 scraper. -/
def parseMedexEntry (a : MedexAnchor) : Option MedexRecord :=
  match a.dataRow with
  | none => none
  | some dr =>
    if medexName dr = [] then none
    else some ⟨medexName dr, medexStrength dr,
               medexGeneric dr (medexName dr) (medexStrength dr),
               medexCompany dr, medexMedType dr, medexSourceUrl a⟩

def parsePageByStructureV3 (es : List MedexAnchor) : List MedexRecord :=
  es.filterMap parseMedexEntry

structure BissoyLi where
  anchorHrefs : List Str
  nameText : Str
  pTexts : List Str
deriving DecidableEq

structure BissoyRecord where
  name_en : Str
  name_bn : Option Str
  source_url : Str
  company : Option Str
  price : Option Str
  generic : Option Str
  strength : Option Str
deriving DecidableEq

def ORIGINB : Str := "https://www.bissoy.com".toList

def medPre : Str := "/medicine/".toList

def sepBar : Str := " | ".toList

/-- First index at which the separator occurs. -/
def findSepIdx (sep s : Str) : Option Nat :=
  (List.range (s.length + 1)).find? (fun i => startsWithS (s.drop i) sep)

def splitOnSepFuel (sep : Str) : Nat → Str → List Str
  | 0, s => [s]
  | fuel + 1, s =>
    match findSepIdx sep s with
    | none => [s]
    | some i => s.take i :: splitOnSepFuel sep fuel (s.drop (i + sep.length))

/-- JS `String.prototype.split` for a non-empty literal separator. -/
def splitOnSep (sep s : Str) : List Str := splitOnSepFuel sep s.length s

/-- `$li.find("a[href^='/medicine/']").first().attr("href") || ""`. -/
def bissoyHref (li : BissoyLi) : Str :=
  jsOrEmpty (li.anchorHrefs.find? (fun h => startsWithS h medPre))

def bissoySourceUrl (li : BissoyLi) : Str :=
  if startsWithS (bissoyHref li) httpPre then bissoyHref li
  else ORIGINB ++ bissoyHref li

def bissoyParts (li : BissoyLi) : List Str :=
  (splitOnSep sepBar (trimS li.nameText)).map trimS

def bissoyNameEn (li : BissoyLi) : Str := jsOrEmpty (bissoyParts li)[0]?

/-- One `ul.space-y-6 > li` listing entry of the bissoy scraper. -/
def parseBissoyEntry (li : BissoyLi) : Option BissoyRecord :=
  if bissoySourceUrl li = [] ∨ bissoySourceUrl li = ORIGINB then none
  else if bissoyNameEn li = [] then none
  else some ⟨bissoyNameEn li, jsOrNullS (bissoyParts li)[1]?, bissoySourceUrl li,
             jsOrNullS (li.pTexts.map trimS)[2]?, jsOrNullS (li.pTexts.map trimS)[3]?,
             jsOrNullS (li.pTexts.map trimS)[1]?, jsOrNullS (li.pTexts.map trimS)[0]?⟩

def parsePageByStructureBissoy (lis : List BissoyLi) : List BissoyRecord :=
  lis.filterMap parseBissoyEntry

theorem medPre_not_http (s : Str) (h : startsWithS s medPre = true) :
    startsWithS s httpPre = false := by
  have hm : medPre = '/' :: "medicine/".toList := by decide
  have hh : httpPre = 'h' :: "ttp".toList := by decide
  cases s with
  | nil => rw [hm] at h; simp [startsWithS] at h
  | cons c t =>
    rw [hm] at h
    rw [hh]
    simp only [startsWithS] at h ⊢
    by_cases hc : c = '/'
    · subst hc
      rw [if_neg (by decide)]
    · rw [if_neg hc] at h
      simp at h

/-- C7 (amended): every record emitted by either listing extractor has a
    non-empty name; in the bissoy extractor every emitted record's detail URL
    is the origin plus an href that starts with the "/medicine/" path prefix;
    the medex v3 extractor enforces no path prefix on its URLs. -/
theorem summary_extractor_names (es : List MedexAnchor) (ls : List BissoyLi) :
    (∀ r ∈ parsePageByStructureV3 es, r.name ≠ []) ∧
    (∀ r ∈ parsePageByStructureBissoy ls, r.name_en ≠ [] ∧
      startsWithS r.source_url (ORIGINB ++ medPre) = true) := by
  constructor
  · intro r hr
    rw [parsePageByStructureV3, List.mem_filterMap] at hr
    obtain ⟨a, _, hpa⟩ := hr
    unfold parseMedexEntry at hpa
    cases hd : a.dataRow with
    | none =>
      simp only [hd] at hpa
      exact Option.noConfusion hpa
    | some dr =>
      simp only [hd] at hpa
      by_cases hn : medexName dr = []
      · rw [if_pos hn] at hpa
        exact Option.noConfusion hpa
      · rw [if_neg hn] at hpa
        have := Option.some.inj hpa
        subst this
        exact hn
  · intro r hr
    rw [parsePageByStructureBissoy, List.mem_filterMap] at hr
    obtain ⟨li, _, hp⟩ := hr
    unfold parseBissoyEntry at hp
    by_cases h1 : bissoySourceUrl li = [] ∨ bissoySourceUrl li = ORIGINB
    · rw [if_pos h1] at hp
      exact Option.noConfusion hp
    · rw [if_neg h1] at hp
      by_cases h2 : bissoyNameEn li = []
      · rw [if_pos h2] at hp
        exact Option.noConfusion hp
      · rw [if_neg h2] at hp
        have := Option.some.inj hp
        subst this
        refine ⟨h2, ?_⟩
        obtain ⟨_, hB⟩ := not_or.mp h1
        show startsWithS (bissoySourceUrl li) (ORIGINB ++ medPre) = true
        cases hfind : li.anchorHrefs.find? (fun h => startsWithS h medPre) with
        | none =>
          exfalso
          apply hB
          unfold bissoySourceUrl bissoyHref
          rw [hfind]
          have h3 : startsWithS (jsOrEmpty (none : Option Str)) httpPre = false := by
            decide
          rw [if_neg (by rw [h3]; exact Bool.false_ne_true)]
          simp [jsOrEmpty]
        | some h =>
          have hpre : startsWithS h medPre = true := by
            have := List.find?_some hfind
            simpa using this
          have hhttp := medPre_not_http h hpre
          have hsu : bissoySourceUrl li = ORIGINB ++ h := by
            unfold bissoySourceUrl bissoyHref
            rw [hfind]
            have : jsOrEmpty (some h) = h := rfl
            rw [this, if_neg (by rw [hhttp]; exact Bool.false_ne_true)]
          rw [hsu]
          exact startsWithS_append_left ORIGINB hpre

def c7Dr : MedexDataRow :=
  { icon1 := none, icon2 := none, topOwn := "Napa".toList,
    topFull := "Napa".toList, strengthGrey := [], strengthFull := [],
    cols := [], companyText := [] }

def c7Entry : MedexAnchor := { href := none, dataRow := some c7Dr }

/-- Counterexample for C7 as stated: the medex v3 extractor emits a record for
    a listing anchor with no href at all — its detail URL is the bare origin,
    which starts with no path prefix, yet the entry is not discarded. -/
theorem summary_prefix_counterexample :
    parsePageByStructureV3 [c7Entry]
      = [⟨"Napa".toList, none, none, none, none, ORIGINC⟩] ∧
    startsWithS ORIGINC (ORIGINC ++ slashPre) = false := by decide

def c7Rec : MedexRecord := ⟨"Napa".toList, none, none, none, none, ORIGINC⟩

def c7Bli : BissoyLi :=
  ⟨["/medicine/napa-500".toList], "Napa | Napa Extra".toList,
   ["500 mg".toList, "Paracetamol".toList, "Beximco".toList, "1.20".toList]⟩

def c7BRec : BissoyRecord :=
  ⟨"Napa".toList, some ("Napa Extra".toList),
   ORIGINB ++ "/medicine/napa-500".toList, some ("Beximco".toList),
   some ("1.20".toList), some ("Paracetamol".toList), some ("500 mg".toList)⟩

/-- Witness for C7 at one concrete record from each extractor. -/
theorem summary_extractor_names_witness :
    (c7Rec ∈ parsePageByStructureV3 [c7Entry] ∧
      c7BRec ∈ parsePageByStructureBissoy [c7Bli]) ∧
    c7Rec.name ≠ [] ∧
    (c7BRec.name_en ≠ [] ∧
      startsWithS c7BRec.source_url (ORIGINB ++ medPre) = true) :=
  ⟨⟨by decide, by decide⟩,
   (summary_extractor_names [c7Entry] [c7Bli]).1 c7Rec (by decide),
   (summary_extractor_names [c7Entry] [c7Bli]).2 c7BRec (by decide)⟩

/-! ## Per-item resumable pipeline (fetch_medex_brand_details.js main loop,
    alreadyProcessed lines 346-350 and main lines 367-394; part_001 has the
    identical skip logic)

The network is an oracle from the (possibly null) requested URL to either
(html, finalUrl) or an error message; a parsed record is represented by its
page URL (`finalUrl || source_url`) and its html payload, an error record by
the item's source_url and the message. -/

structure InputItem where
  source_url : Option Str
  source : Option Str
  href : Option Str
  link : Option Str
deriving DecidableEq

structure OutRec where
  source_url : Option Str
  payload : Str
  isError : Bool
deriving DecidableEq

/-- `item.source_url || item.source || item.href || item.link`. -/
def itemSrc (it : InputItem) : Option Str :=
  jsOrOpt (jsOrOpt (jsOrOpt it.source_url it.source) it.href) it.link

/-- `src ? normalizeUrl(src) : null`. -/
def mainSourceUrl (it : InputItem) : Option Str :=
  match itemSrc it with
  | some s => if s = [] then none else some (normalizeUrl s)
  | none => none

/-- `alreadyProcessed(outputArr, sourceUrl)`. -/
def alreadyProcessed (outputArr : List OutRec) (sourceUrl : Option Str) : Bool :=
  match sourceUrl with
  | none => false
  | some s =>
    if s = [] then false
    else
      outputArr.any (fun e =>
        e.source_url == some (trimS s) ||
        e.source_url == some (normalizeUrl (trimS s)))

/-- One iteration of the main loop: skip when already processed, otherwise
    fetch, and append either the parsed record (keyed by
    `finalUrl || source_url`) or the error record (keyed by `source_url`). -/
def processItem (oracle : Option Str → Except Str (Str × Str))
    (arr : List OutRec) (it : InputItem) : List OutRec :=
  if alreadyProcessed arr (mainSourceUrl it) then arr
  else
    match oracle (mainSourceUrl it) with
    | .ok (html, finalUrl) =>
      arr ++ [⟨if finalUrl = [] then mainSourceUrl it else some finalUrl, html, false⟩]
    | .error msg => arr ++ [⟨mainSourceUrl it, msg, true⟩]

/-- The whole run over the input list starting from the current store. -/
def runPipeline (oracle : Option Str → Except Str (Str × Str))
    (input : List InputItem) (store : List OutRec) : List OutRec :=
  input.foldl (processItem oracle) store

def c1Item : InputItem :=
  ⟨some ("https://medex.com.bd/brands/1 ".toList), none, none, none⟩

/-- A redirect-free network: every requested URL resolves to itself. -/
def echoOracle : Option Str → Except Str (Str × Str) :=
  fun u =>
    match u with
    | some s => .ok ("<html>".toList, s)
    | none => .error ("Fetch failed: Invalid URL".toList)

/-- Counterexample for C1 as stated: an input URL with a trailing space is
    appended by the first run under its untrimmed URL, but the skip check
    compares against the trimmed URL, so a second full run over the same
    input fetches it again and appends a record whose source_url already
    occurs in the store. -/
theorem resume_rerun_counterexample :
    (runPipeline echoOracle [c1Item] []).length = 1 ∧
    (runPipeline echoOracle [c1Item] (runPipeline echoOracle [c1Item] [])).length = 2 ∧
    (runPipeline echoOracle [c1Item] (runPipeline echoOracle [c1Item] [])).map
        OutRec.source_url
      = [some ("https://medex.com.bd/brands/1 ".toList),
         some ("https://medex.com.bd/brands/1 ".toList)] ∧
    runPipeline echoOracle [c1Item] (runPipeline echoOracle [c1Item] [])
      ≠ runPipeline echoOracle [c1Item] [] := by decide

theorem normalizeUrl_ne_nil (s : Str) (h0 : s ≠ []) : normalizeUrl s ≠ [] := by
  unfold normalizeUrl
  rw [if_neg h0]
  by_cases h1 : startsWithS s httpPre = true
  · rw [if_pos h1]; exact h0
  · rw [if_neg h1]
    by_cases h2 : startsWithS s slashPre = true
    · rw [if_pos h2]; exact ORIGINC_append_ne_nil s
    · rw [if_neg h2]
      simp [ORIGINC]

theorem mainSourceUrl_ne_nil (it : InputItem) (u : Str)
    (h : mainSourceUrl it = some u) : u ≠ [] := by
  unfold mainSourceUrl at h
  split at h
  · split at h
    · exact Option.noConfusion h
    · rename_i h0
      have := Option.some.inj h
      subst this
      exact normalizeUrl_ne_nil _ h0
  · exact Option.noConfusion h

theorem alreadyProcessed_append (arr l : List OutRec) (u : Option Str)
    (h : alreadyProcessed arr u = true) : alreadyProcessed (arr ++ l) u = true := by
  cases u with
  | none => simp [alreadyProcessed] at h
  | some s =>
    simp only [alreadyProcessed] at h ⊢
    by_cases h0 : s = []
    · rw [if_pos h0] at h; exact absurd h (by simp)
    · rw [if_neg h0] at h ⊢
      rw [List.any_append, h]
      rfl

theorem processItem_extends (oracle : Option Str → Except Str (Str × Str))
    (arr : List OutRec) (it : InputItem) :
    ∃ t, processItem oracle arr it = arr ++ t := by
  unfold processItem
  by_cases h : alreadyProcessed arr (mainSourceUrl it) = true
  · rw [if_pos h]; exact ⟨[], (List.append_nil arr).symm⟩
  · rw [if_neg h]
    cases ho : oracle (mainSourceUrl it) with
    | ok pr =>
      obtain ⟨hh, ff⟩ := pr
      simp only [ho]
      exact ⟨_, rfl⟩
    | error m =>
      simp only [ho]
      exact ⟨_, rfl⟩

theorem processItem_processed (oracle : Option Str → Except Str (Str × Str))
    (arr : List OutRec) (it : InputItem) (u : Str)
    (hu : mainSourceUrl it = some u) (htrim : trimS u = u)
    (hnr : ∀ v hh ff, oracle (some v) = .ok (hh, ff) → ff = v) :
    alreadyProcessed (processItem oracle arr it) (mainSourceUrl it) = true := by
  by_cases h : alreadyProcessed arr (mainSourceUrl it) = true
  · unfold processItem; rw [if_pos h]; exact h
  · have hune : u ≠ [] := mainSourceUrl_ne_nil it u hu
    unfold processItem
    rw [if_neg h, hu]
    cases ho : oracle (some u) with
    | ok pr =>
      obtain ⟨hh, ff⟩ := pr
      have hf : ff = u := hnr u hh ff ho
      subst hf
      simp only [ho]
      simp [alreadyProcessed, hune, htrim, List.any_append]
    | error m =>
      simp only [ho]
      simp [alreadyProcessed, hune, htrim, List.any_append]

theorem runPipeline_extends (oracle : Option Str → Except Str (Str × Str))
    (input : List InputItem) :
    ∀ store, ∃ t, runPipeline oracle input store = store ++ t := by
  induction input with
  | nil => intro store; exact ⟨[], (List.append_nil store).symm⟩
  | cons it rest ih =>
    intro store
    unfold runPipeline
    rw [List.foldl_cons]
    obtain ⟨t1, ht1⟩ := processItem_extends oracle store it
    obtain ⟨t2, ht2⟩ := ih (processItem oracle store it)
    unfold runPipeline at ht2
    rw [ht2, ht1]
    exact ⟨t1 ++ t2, by rw [List.append_assoc]⟩

theorem runPipeline_processed (oracle : Option Str → Except Str (Str × Str))
    (input : List InputItem)
    (hres : ∀ it ∈ input, ∃ u, mainSourceUrl it = some u ∧ trimS u = u)
    (hnr : ∀ v hh ff, oracle (some v) = .ok (hh, ff) → ff = v) :
    ∀ store, ∀ it ∈ input,
      alreadyProcessed (runPipeline oracle input store) (mainSourceUrl it) = true := by
  induction input with
  | nil => intro store it h; cases h
  | cons x rest ih =>
    intro store it hmem
    unfold runPipeline
    rw [List.foldl_cons]
    rcases List.mem_cons.mp hmem with heq | hmem2
    · subst heq
      obtain ⟨u, hu, htrim⟩ := hres it (List.mem_cons_self it rest)
      have h1 := processItem_processed oracle store it u hu htrim hnr
      obtain ⟨t, ht⟩ := runPipeline_extends oracle rest (processItem oracle store it)
      unfold runPipeline at ht
      rw [ht]
      exact alreadyProcessed_append _ t _ h1
    · have := ih (fun it2 h2 => hres it2 (List.mem_cons_of_mem x h2))
        (processItem oracle store x) it hmem2
      unfold runPipeline at this
      exact this

theorem runPipeline_skip (oracle : Option Str → Except Str (Str × Str))
    (input : List InputItem) :
    ∀ store, (∀ it ∈ input, alreadyProcessed store (mainSourceUrl it) = true) →
      runPipeline oracle input store = store := by
  induction input with
  | nil => intro store _; rfl
  | cons x rest ih =>
    intro store hall
    unfold runPipeline
    rw [List.foldl_cons]
    have hx := hall x (List.mem_cons_self x rest)
    have hstep : processItem oracle store x = store := by
      unfold processItem; rw [if_pos hx]
    rw [hstep]
    exact ih store (fun it h => hall it (List.mem_cons_of_mem x h))

/-- C1 (amended): the pipeline checks the store before fetching and skips
    already-recorded items; consequently, provided every input item has a
    resolvable source URL whose normalized form carries no surrounding
    whitespace, and every successful fetch resolves to the requested URL (no
    redirects), re-running the whole pipeline on any prior store appends
    nothing: the second full run leaves exactly the records of the first. -/
theorem resume_idempotent (oracle : Option Str → Except Str (Str × Str))
    (input : List InputItem) (s0 : List OutRec)
    (hres : ∀ it ∈ input, ∃ u, mainSourceUrl it = some u ∧ trimS u = u)
    (hnr : ∀ v hh ff, oracle (some v) = .ok (hh, ff) → ff = v) :
    runPipeline oracle input (runPipeline oracle input s0)
      = runPipeline oracle input s0 :=
  runPipeline_skip oracle input _
    (fun it h => runPipeline_processed oracle input hres hnr s0 it h)

def c1Good : InputItem :=
  ⟨some ("https://medex.com.bd/brands/2".toList), none, none, none⟩

/-- Witness for C1 on a clean input URL and a redirect-free oracle. -/
theorem resume_idempotent_witness :
    (∀ it ∈ [c1Good], ∃ u, mainSourceUrl it = some u ∧ trimS u = u) ∧
    runPipeline echoOracle [c1Good] (runPipeline echoOracle [c1Good] [])
      = runPipeline echoOracle [c1Good] [] := by
  have hres : ∀ it ∈ [c1Good], ∃ u, mainSourceUrl it = some u ∧ trimS u = u := by
    intro it h
    rw [List.mem_singleton] at h
    subst h
    exact ⟨"https://medex.com.bd/brands/2".toList, by decide, by decide⟩
  have hnr : ∀ v hh ff, echoOracle (some v) = .ok (hh, ff) → ff = v := by
    intro v hh ff he
    simp [echoOracle] at he
    exact he.2.symm
  exact ⟨hres, resume_idempotent echoOracle [c1Good] [] hres hnr⟩

/-! ## Batch scheduler (scrape_medex_brands_file_split_v3.js main, lines
    165-237; part_000 lines 123-195 identically)

Pages of a batch are fetched through `fetchWithRetries` against a per-page
oracle; the per-batch collection loop, the batch-file write (modelled as the
artifact triple), the failed-page accumulation and the final
dedup-and-sort report are embedded below. -/

/-- `res.error || "unknown"`. -/
def errOrUnknown (r : FetchResult) : Str :=
  match r.error with
  | some e => if e = [] then unknownS else e
  | none => unknownS

/-- The per-batch loop over the settled fetch results: successful pages
    contribute their parsed records tagged with `_source_page`; failed pages
    are recorded separately with their error. -/
def batchCollect {α : Type} (parse : Str → Str → List α) :
    List FetchResult → List (α × Nat) × List (Nat × Str)
  | [] => ([], [])
  | r :: rs =>
    if r.success then
      (((parse (jsOrEmpty r.html) (jsOrEmpty r.finalUrl)).map (fun x => (x, r.page)))
         ++ (batchCollect parse rs).1,
       (batchCollect parse rs).2)
    else ((batchCollect parse rs).1,
          (r.page, errOrUnknown r) :: (batchCollect parse rs).2)

/-- The settled results of the concurrent fetches for pages `s..e`. -/
def batchResults (oracle : Nat → Nat → FetchOutcome) (mr : Int) (s e : Nat) :
    List FetchResult :=
  (List.range' s (e + 1 - s)).map (fun p => (fetchWithRetries (oracle p) p mr).1)

structure SchedState (α : Type) where
  artifacts : List (Nat × Nat × List (α × Nat))
  failedPages : List Nat
  totalSaved : Nat
deriving DecidableEq

/-- The `for (let start = 1; start <= MAX_PAGES; start += BATCH_SIZE)` loop;
    fuel bounds the number of iterations (`mp + 1` suffices for `bs ≥ 1`). -/
def schedGo {α : Type} (oracle : Nat → Nat → FetchOutcome)
    (parse : Str → Str → List α) (existing : Nat → Nat → Bool)
    (mr : Int) (bs mp : Nat) : Nat → Nat → SchedState α → SchedState α
  | 0, _, st => st
  | fuel + 1, start, st =>
    if start ≤ mp then
      if existing start (min (start + bs - 1) mp) then
        schedGo oracle parse existing mr bs mp fuel (start + bs) st
      else
        schedGo oracle parse existing mr bs mp fuel (start + bs)
          ⟨st.artifacts ++ [(start, min (start + bs - 1) mp,
             (batchCollect parse
               (batchResults oracle mr start (min (start + bs - 1) mp))).1)],
           st.failedPages ++ (batchCollect parse
             (batchResults oracle mr start (min (start + bs - 1) mp))).2.map Prod.fst,
           st.totalSaved + (batchCollect parse
             (batchResults oracle mr start (min (start + bs - 1) mp))).1.length⟩
    else st

def schedRun {α : Type} (oracle : Nat → Nat → FetchOutcome)
    (parse : Str → Str → List α) (existing : Nat → Nat → Bool)
    (mr : Int) (bs mp : Nat) : SchedState α :=
  schedGo oracle parse existing mr bs mp (mp + 1) 1 ⟨[], [], 0⟩

/-- `new Set(...)` insertion-order dedup. -/
def dedupFirstAux : List Nat → List Nat → List Nat
  | _, [] => []
  | seen, a :: l =>
    if a ∈ seen then dedupFirstAux seen l else a :: dedupFirstAux (a :: seen) l

def insertAsc (x : Nat) : List Nat → List Nat
  | [] => [x]
  | y :: rest => if x ≤ y then x :: y :: rest else y :: insertAsc x rest

/-- `.sort((a, b) => a - b)`. -/
def sortAsc : List Nat → List Nat
  | [] => []
  | x :: rest => insertAsc x (sortAsc rest)

/-- `Array.from(new Set(failedPages)).sort((a, b) => a - b)`. -/
def failedUniqueL {α : Type} (st : SchedState α) : List Nat :=
  sortAsc (dedupFirstAux [] st.failedPages)

/-- Modelled from the spec: "the batch's output artifact … containing exactly
    the records extracted from the successful fetches", tagged with their
    origin page. -/
def successItems {α : Type} (oracle : Nat → Nat → FetchOutcome)
    (parse : Str → Str → List α) (mr : Int) (s e : Nat) : List (α × Nat) :=
  (((batchResults oracle mr s e).filter (fun r => r.success)).map
    (fun r => (parse (jsOrEmpty r.html) (jsOrEmpty r.finalUrl)).map
      (fun x => (x, r.page)))).flatten

theorem batchCollect_items {α : Type} (parse : Str → Str → List α) :
    ∀ rs : List FetchResult,
      (batchCollect parse rs).1 = ((rs.filter (fun r => r.success)).map
        (fun r => (parse (jsOrEmpty r.html) (jsOrEmpty r.finalUrl)).map
          (fun x => (x, r.page)))).flatten := by
  intro rs
  induction rs with
  | nil => rfl
  | cons r rest ih =>
    by_cases hs : r.success = true
    · simp only [batchCollect, hs, if_true, List.filter_cons, List.map_cons,
        List.flatten_cons]
      rw [ih]
    · have hs2 : r.success = false := by
        cases hb : r.success
        · rfl
        · exact absurd hb hs
      simp only [batchCollect, hs2, Bool.false_eq_true, if_false,
        List.filter_cons, List.map_cons]
      rw [ih]

theorem batchCollect_failed {α : Type} (parse : Str → Str → List α) :
    ∀ rs : List FetchResult,
      (batchCollect parse rs).2 = (rs.filter (fun r => !r.success)).map
        (fun r => (r.page, errOrUnknown r)) := by
  intro rs
  induction rs with
  | nil => rfl
  | cons r rest ih =>
    by_cases hs : r.success = true
    · simp only [batchCollect, hs, if_true, List.filter_cons]
      rw [ih]
      simp [hs]
    · have hs2 : r.success = false := by
        cases hb : r.success
        · rfl
        · exact absurd hb hs
      simp only [batchCollect, hs2, Bool.false_eq_true, if_false, List.filter_cons]
      rw [ih]
      simp [hs2]

theorem mem_dedupFirstAux :
    ∀ (l seen : List Nat) (a : Nat),
      a ∈ dedupFirstAux seen l ↔ a ∈ l ∧ a ∉ seen := by
  intro l
  induction l with
  | nil => intro seen a; simp [dedupFirstAux]
  | cons b rest ih =>
    intro seen a
    by_cases hb : b ∈ seen
    · simp only [dedupFirstAux, if_pos hb]
      rw [ih seen a]
      simp only [List.mem_cons]
      constructor
      · rintro ⟨h1, h2⟩; exact ⟨Or.inr h1, h2⟩
      · rintro ⟨h1 | h1, h2⟩
        · subst h1; exact absurd hb h2
        · exact ⟨h1, h2⟩
    · simp only [dedupFirstAux, if_neg hb, List.mem_cons]
      rw [ih (b :: seen) a]
      simp only [List.mem_cons]
      constructor
      · rintro (rfl | ⟨h1, h2⟩)
        · exact ⟨Or.inl rfl, hb⟩
        · exact ⟨Or.inr h1, fun hs => h2 (Or.inr hs)⟩
      · rintro ⟨h1 | h1, h2⟩
        · exact Or.inl h1
        · by_cases hab : a = b
          · exact Or.inl hab
          · refine Or.inr ⟨h1, ?_⟩
            intro hs
            rcases hs with h3 | h3
            · exact hab h3
            · exact h2 h3

theorem nodup_dedupFirstAux : ∀ (l seen : List Nat), (dedupFirstAux seen l).Nodup := by
  intro l
  induction l with
  | nil => intro seen; exact List.nodup_nil
  | cons b rest ih =>
    intro seen
    by_cases hb : b ∈ seen
    · simp only [dedupFirstAux, if_pos hb]; exact ih seen
    · simp only [dedupFirstAux, if_neg hb]
      refine List.nodup_cons.mpr ⟨?_, ih (b :: seen)⟩
      intro hmem
      rw [mem_dedupFirstAux] at hmem
      exact hmem.2 (List.mem_cons_self b seen)

theorem mem_insertAsc (x : Nat) :
    ∀ (l : List Nat) (a : Nat), a ∈ insertAsc x l ↔ a = x ∨ a ∈ l := by
  intro l
  induction l with
  | nil => intro a; simp [insertAsc]
  | cons y rest ih =>
    intro a
    unfold insertAsc
    by_cases h : x ≤ y
    · rw [if_pos h]; simp [List.mem_cons]
    · rw [if_neg h]
      simp only [List.mem_cons, ih]
      tauto

theorem sorted_insertAsc (x : Nat) :
    ∀ l : List Nat, List.Sorted (· ≤ ·) l → List.Sorted (· ≤ ·) (insertAsc x l) := by
  intro l
  induction l with
  | nil => intro _; simp [insertAsc]
  | cons y rest ih =>
    intro hs
    rw [List.sorted_cons] at hs
    obtain ⟨hy, hrest⟩ := hs
    unfold insertAsc
    by_cases h : x ≤ y
    · rw [if_pos h, List.sorted_cons]
      refine ⟨?_, List.sorted_cons.mpr ⟨hy, hrest⟩⟩
      intro b hb
      rcases List.mem_cons.mp hb with rfl | hb2
      · exact h
      · exact le_trans h (hy b hb2)
    · rw [if_neg h, List.sorted_cons]
      refine ⟨?_, ih hrest⟩
      intro b hb
      rw [mem_insertAsc] at hb
      rcases hb with rfl | hb2
      · omega
      · exact hy b hb2

theorem mem_sortAsc : ∀ (l : List Nat) (a : Nat), a ∈ sortAsc l ↔ a ∈ l := by
  intro l
  induction l with
  | nil => intro a; simp [sortAsc]
  | cons x rest ih =>
    intro a
    unfold sortAsc
    rw [mem_insertAsc, ih]
    simp [List.mem_cons]

theorem sorted_sortAsc : ∀ l : List Nat, List.Sorted (· ≤ ·) (sortAsc l) := by
  intro l
  induction l with
  | nil => simp [sortAsc]
  | cons x rest ih => exact sorted_insertAsc x (sortAsc rest) ih

theorem nodup_insertAsc (x : Nat) :
    ∀ l : List Nat, x ∉ l → l.Nodup → (insertAsc x l).Nodup := by
  intro l
  induction l with
  | nil => intro _ _; simp [insertAsc]
  | cons y rest ih =>
    intro hx hnd
    rw [List.nodup_cons] at hnd
    obtain ⟨hy, hnd2⟩ := hnd
    simp only [List.mem_cons, not_or] at hx
    obtain ⟨hxy, hxrest⟩ := hx
    unfold insertAsc
    by_cases h : x ≤ y
    · rw [if_pos h]
      refine List.nodup_cons.mpr ⟨?_, List.nodup_cons.mpr ⟨hy, hnd2⟩⟩
      simp only [List.mem_cons, not_or]
      exact ⟨fun he => hxy he, hxrest⟩
    · rw [if_neg h]
      refine List.nodup_cons.mpr ⟨?_, ih hxrest hnd2⟩
      rw [mem_insertAsc]
      rintro (he | hmem)
      · omega
      · exact hy hmem

theorem nodup_sortAsc : ∀ l : List Nat, l.Nodup → (sortAsc l).Nodup := by
  intro l
  induction l with
  | nil => intro _; simp [sortAsc]
  | cons x rest ih =>
    intro hnd
    rw [List.nodup_cons] at hnd
    obtain ⟨hx, hnd2⟩ := hnd
    unfold sortAsc
    refine nodup_insertAsc x (sortAsc rest) ?_ (ih hnd2)
    rw [mem_sortAsc]
    exact hx

theorem sorted_lt_of_le_nodup {l : List Nat}
    (h1 : List.Sorted (· ≤ ·) l) (h2 : l.Nodup) : List.Sorted (· < ·) l :=
  (h1.and h2).imp (fun h => lt_of_le_of_ne h.1 h.2)

theorem fetchLoop_page (oracle : Nat → FetchOutcome) (page : Nat) :
    ∀ (r a : Nat) (le : Option Str), (fetchLoop oracle page a le r).1.page = page := by
  intro r
  induction r with
  | zero => intro a le; rfl
  | succ n ih =>
    intro a le
    cases hoa : oracle a with
    | ok h f => rw [fetchLoop_ok_step oracle page a le h f n hoa]
    | err m =>
      rw [fetchLoop_err_step oracle page a le m n hoa]
      exact ih (a + 1) (some m)

theorem mem_batchResults {oracle : Nat → Nat → FetchOutcome} {mr : Int}
    {s e : Nat} {r : FetchResult} (h : r ∈ batchResults oracle mr s e) :
    r = (fetchWithRetries (oracle r.page) r.page mr).1 := by
  unfold batchResults at h
  rw [List.mem_map] at h
  obtain ⟨p, _, rfl⟩ := h
  have hpage : (fetchWithRetries (oracle p) p mr).1.page = p :=
    fetchLoop_page (oracle p) p mr.toNat 0 none
  rw [hpage]

theorem schedGo_artifacts_inv {α : Type} (oracle : Nat → Nat → FetchOutcome)
    (parse : Str → Str → List α) (existing : Nat → Nat → Bool)
    (mr : Int) (bs mp : Nat) :
    ∀ (fuel start : Nat) (st : SchedState α),
      (∀ x ∈ st.artifacts, x.2.2 = successItems oracle parse mr x.1 x.2.1) →
      ∀ x ∈ (schedGo oracle parse existing mr bs mp fuel start st).artifacts,
        x.2.2 = successItems oracle parse mr x.1 x.2.1 := by
  intro fuel
  induction fuel with
  | zero => intro start st hinv; exact hinv
  | succ n ih =>
    intro start st hinv
    unfold schedGo
    by_cases h1 : start ≤ mp
    · rw [if_pos h1]
      by_cases h2 : existing start (min (start + bs - 1) mp) = true
      · rw [if_pos h2]
        exact ih (start + bs) st hinv
      · rw [if_neg h2]
        apply ih (start + bs)
        intro y hy
        rw [List.mem_append] at hy
        rcases hy with hy | hy
        · exact hinv y hy
        · rw [List.mem_singleton] at hy
          subst hy
          show (batchCollect parse
              (batchResults oracle mr start (min (start + bs - 1) mp))).1
            = successItems oracle parse mr start (min (start + bs - 1) mp)
          rw [batchCollect_items]
          rfl
    · rw [if_neg h1]
      exact hinv

theorem schedGo_failed_inv {α : Type} (oracle : Nat → Nat → FetchOutcome)
    (parse : Str → Str → List α) (existing : Nat → Nat → Bool)
    (mr : Int) (bs mp : Nat) :
    ∀ (fuel start : Nat) (st : SchedState α),
      (∀ p ∈ st.failedPages, (fetchWithRetries (oracle p) p mr).1.success = false) →
      ∀ p ∈ (schedGo oracle parse existing mr bs mp fuel start st).failedPages,
        (fetchWithRetries (oracle p) p mr).1.success = false := by
  intro fuel
  induction fuel with
  | zero => intro start st hinv; exact hinv
  | succ n ih =>
    intro start st hinv
    unfold schedGo
    by_cases h1 : start ≤ mp
    · rw [if_pos h1]
      by_cases h2 : existing start (min (start + bs - 1) mp) = true
      · rw [if_pos h2]
        exact ih (start + bs) st hinv
      · rw [if_neg h2]
        apply ih (start + bs)
        intro p hp
        rw [List.mem_append] at hp
        rcases hp with hp | hp
        · exact hinv p hp
        · rw [batchCollect_failed, List.map_map, List.mem_map] at hp
          obtain ⟨r, hr, hpeq⟩ := hp
          rw [List.mem_filter] at hr
          obtain ⟨hrmem, hrsucc⟩ := hr
          have hre := mem_batchResults hrmem
          have hp2 : r.page = p := hpeq
          rw [← hp2, ← hre]
          simpa using hrsucc
    · rw [if_neg h1]
      exact hinv

theorem schedGo_pairwise {α : Type} (oracle : Nat → Nat → FetchOutcome)
    (parse : Str → Str → List α) (existing : Nat → Nat → Bool)
    (mr : Int) (bs mp : Nat) (hbs : 1 ≤ bs) :
    ∀ (fuel start : Nat) (st : SchedState α),
      st.artifacts.Pairwise (fun x y => x.2.1 < y.1) →
      (∀ x ∈ st.artifacts, x.2.1 < start) →
      (schedGo oracle parse existing mr bs mp fuel start st).artifacts.Pairwise
        (fun x y => x.2.1 < y.1) := by
  intro fuel
  induction fuel with
  | zero => intro start st hp _; exact hp
  | succ n ih =>
    intro start st hp hlt
    unfold schedGo
    by_cases h1 : start ≤ mp
    · rw [if_pos h1]
      by_cases h2 : existing start (min (start + bs - 1) mp) = true
      · rw [if_pos h2]
        exact ih (start + bs) st hp (fun x hx => lt_of_lt_of_le (hlt x hx) (by omega))
      · rw [if_neg h2]
        apply ih (start + bs)
        · rw [List.pairwise_append]
          refine ⟨hp, List.pairwise_singleton _ _, ?_⟩
          intro x hx y hy
          rw [List.mem_singleton] at hy
          subst hy
          exact hlt x hx
        · intro x hx
          rw [List.mem_append] at hx
          rcases hx with hx | hx
          · exact lt_of_lt_of_le (hlt x hx) (by omega)
          · rw [List.mem_singleton] at hx
            subst hx
            show min (start + bs - 1) mp < start + bs
            omega
    · rw [if_neg h1]
      exact hp

/-- C3: the per-batch collection writes the batch artifact with exactly the
    records extracted from the successful fetches (in order, tagged with
    their origin page) and records the failed identities separately with
    their errors; the processed batch ranges are pairwise disjoint and
    increasing, so no failed page is retried within the run; every recorded
    failed page is one whose `fetchWithRetries` result after exhausting
    retries is a failure; and the end-of-run report is the deduplicated set
    of failed pages sorted in strictly ascending numeric order. -/
theorem scheduler_partial_success {α : Type} (oracle : Nat → Nat → FetchOutcome)
    (parse : Str → Str → List α) (existing : Nat → Nat → Bool) (mr : Int)
    (bs mp : Nat) (hbs : 1 ≤ bs) :
    (∀ rs : List FetchResult,
      (batchCollect parse rs).1 = ((rs.filter (fun r => r.success)).map
        (fun r => (parse (jsOrEmpty r.html) (jsOrEmpty r.finalUrl)).map
          (fun x => (x, r.page)))).flatten ∧
      (batchCollect parse rs).2 = (rs.filter (fun r => !r.success)).map
        (fun r => (r.page, errOrUnknown r))) ∧
    (∀ x ∈ (schedRun oracle parse existing mr bs mp).artifacts,
      x.2.2 = successItems oracle parse mr x.1 x.2.1) ∧
    (schedRun oracle parse existing mr bs mp).artifacts.Pairwise
      (fun x y => x.2.1 < y.1) ∧
    (∀ p ∈ (schedRun oracle parse existing mr bs mp).failedPages,
      (fetchWithRetries (oracle p) p mr).1.success = false) ∧
    List.Sorted (· < ·) (failedUniqueL (schedRun oracle parse existing mr bs mp)) ∧
    (∀ p, p ∈ failedUniqueL (schedRun oracle parse existing mr bs mp) ↔
      p ∈ (schedRun oracle parse existing mr bs mp).failedPages) := by
  refine ⟨fun rs => ⟨batchCollect_items parse rs, batchCollect_failed parse rs⟩,
    ?_, ?_, ?_, ?_, ?_⟩
  · exact schedGo_artifacts_inv oracle parse existing mr bs mp (mp + 1) 1
      ⟨[], [], 0⟩ (by intro x hx; simp at hx)
  · exact schedGo_pairwise oracle parse existing mr bs mp hbs (mp + 1) 1
      ⟨[], [], 0⟩ List.Pairwise.nil (by intro x hx; simp at hx)
  · exact schedGo_failed_inv oracle parse existing mr bs mp (mp + 1) 1
      ⟨[], [], 0⟩ (by intro p hp; simp at hp)
  · exact sorted_lt_of_le_nodup (sorted_sortAsc _)
      (nodup_sortAsc _ (nodup_dedupFirstAux _ []))
  · intro p
    unfold failedUniqueL
    rw [mem_sortAsc, mem_dedupFirstAux]
    simp

def c3Oracle : Nat → Nat → FetchOutcome :=
  fun p _ =>
    if p = 2 ∨ p = 4 then .err ("boom".toList)
    else .ok ("<li>x</li>".toList) ("https://medex.com.bd/brands".toList)

def c3Parse : Str → Str → List Str := fun h _ => [h]

def c3NoExisting : Nat → Nat → Bool := fun _ _ => false

/-- Witness for C3: one batch of 5 pages with pages 2 and 4 failing all three
    retries; the final report is exactly [2, 4]. -/
theorem scheduler_partial_success_witness :
    (1 : Nat) ≤ 5 ∧
    failedUniqueL (schedRun c3Oracle c3Parse c3NoExisting 3 5 5) = [2, 4] ∧
    List.Sorted (· < ·) (failedUniqueL (schedRun c3Oracle c3Parse c3NoExisting 3 5 5)) ∧
    (∀ x ∈ (schedRun c3Oracle c3Parse c3NoExisting 3 5 5).artifacts,
      x.2.2 = successItems c3Oracle c3Parse 3 x.1 x.2.1) :=
  ⟨by decide, by decide,
   (scheduler_partial_success c3Oracle c3Parse c3NoExisting 3 5 5 (by decide)).2.2.2.2.1,
   (scheduler_partial_success c3Oracle c3Parse c3NoExisting 3 5 5 (by decide)).2.1⟩

def c5MixedLi : DLi := ⟨[.textC ("Take ".toList), .strongC ("daily".toList)]⟩

/-- Counterexample for C5 as stated: a list item with a non-leading direct
    bold node does not begin with a bold inline node, yet the parser takes
    the special branch and creates a new DosageGroup from it (medication type
    from the non-leading bold text) instead of folding the item's text into
    the current group's instructions. -/
theorem dosage_plainlist_counterexample :
    liBeginsBold c5MixedLi = false ∧
    (dosageStep emptyDAcc (.ul [c5MixedLi])).toOption
      = some ⟨[⟨some ("daily".toList), some ("Take".toList), []⟩], none, [], []⟩ ∧
    (dosageStep emptyDAcc (.ul [c5MixedLi])).toOption
      ≠ some { emptyDAcc with currInstr :=
          emptyDAcc.currInstr
            ++ ((ulAllLiTexts [c5MixedLi]).map normWS).filter (fun s => s ≠ []) } := by
  decide
